import Mathlib

/-!
# `aref::ArrayRef`: a shallow embedding of `aref/array_ref.h`

The header defines a non-owning view `ArrayRef<T>` (a pointer `data_` and a
count `size_`), the range descriptor `slice`, the combinator `operator|`, and
value comparisons on views.

Modelling choices
* Addresses are natural numbers counted in elements of `T`; `nullptr` is address `0`.
* A memory `Mem T` maps an address to the element living there, or to `none`
  when no live element is stored at that address.  Dereferencing such an
  address is undefined behaviour in C++ and is the fault `invalid_access` here.
* `size_type` is an unsigned `w`-bit integer: sizes are naturals and the one
  subtraction of the header, `j - i`, is taken modulo `2 ^ w`.
* `assert` is governed by the flag `ndebug` (`true` = assertions compiled out).
* Operations that can throw, abort or fault return `Except Fault _`.
-/

namespace aref

/-- The ways in which an operation can end without returning a value. -/
inductive Fault where
  /-- The exception `std::out_of_range` thrown by `at`. -/
  | out_of_range
  /-- An `assert` whose condition is false, in a build with assertions. -/
  | assertion
  /-- A read of an address that holds no live element. -/
  | invalid_access
  deriving DecidableEq, Repr

deriving instance DecidableEq for Except

/-- A pointer `T*`, as an address counted in elements. -/
abbrev Ptr := Nat

/-- The null pointer. -/
def nullptr : Ptr := 0

/-- The memory: the live elements of type `T`, by address. -/
abbrev Mem (T : Type) := Ptr → Option T

/-- The read `*p`. -/
def deref {T : Type} (mem : Mem T) (p : Ptr) : Except Fault T :=
  match mem p with
  | some v => .ok v
  | none => .error .invalid_access

/-- The subtraction `j - i` of two `size_type` values of `w` bits. -/
def size_sub (w j i : Nat) : Nat :=
  (j % 2 ^ w + (2 ^ w - i % 2 ^ w)) % 2 ^ w

/-- The statement `assert(cond)`: nothing when `ndebug`, else a check of `cond`. -/
def cassert (ndebug cond : Bool) : Except Fault Unit :=
  if ndebug || cond then .ok () else .error .assertion

/-- The class `ArrayRef<T>`: the private members `data_` and `size_` with
their default member initialisers (`ArrayRef() {}` is `{}`). -/
structure ArrayRef where
  data_ : Ptr := nullptr
  size_ : Nat := 0
  deriving DecidableEq, Repr

/-- What the constructors use of a `std::array<T, N>` or a `std::vector<T>`:
`v.data()` and `v.size()`. -/
structure Container where
  data : Ptr
  size : Nat
  deriving DecidableEq, Repr

/-- The struct `slice`. -/
structure slice where
  i : Nat
  j : Nat
  deriving DecidableEq, Repr

/-- The constructor `ArrayRef(T* data, size_type i, size_type j)`. -/
def ArrayRef.ctor_ptr (w : Nat) (ndebug : Bool) (data : Ptr) (i j : Nat) :
    Except Fault ArrayRef :=
  let self : ArrayRef := { data_ := data + i, size_ := size_sub w j i }
  match cassert ndebug (decide (self.size_ ≥ 0)) with
  | .error e => .error e
  | .ok _ => .ok self

/-- The constructor `ArrayRef(std::array<T, N>& v, size_type i, size_type j)`. -/
def ArrayRef.ctor_array (w : Nat) (ndebug : Bool) (v : Container) (i j : Nat) :
    Except Fault ArrayRef :=
  let self : ArrayRef := { data_ := v.data + i, size_ := size_sub w j i }
  match cassert ndebug (decide (self.size_ ≥ 0)) with
  | .error e => .error e
  | .ok _ =>
    match cassert ndebug (decide (self.size_ ≤ v.size)) with
    | .error e => .error e
    | .ok _ => .ok self

/-- The constructor `ArrayRef(std::vector<T>& v, size_type i, size_type j)`. -/
def ArrayRef.ctor_vector (w : Nat) (ndebug : Bool) (v : Container) (i j : Nat) :
    Except Fault ArrayRef :=
  let self : ArrayRef := { data_ := v.data + i, size_ := size_sub w j i }
  match cassert ndebug (decide (self.size_ ≥ 0)) with
  | .error e => .error e
  | .ok _ =>
    match cassert ndebug (decide (self.size_ ≤ v.size)) with
    | .error e => .error e
    | .ok _ => .ok self

/-- The member `at(size_type n)`, both overloads. -/
def ArrayRef.at {T : Type} (mem : Mem T) (self : ArrayRef) (n : Nat) : Except Fault T :=
  if n ≥ self.size_ then .error .out_of_range else deref mem (self.data_ + n)

/-- The member `operator()(size_type i, size_type j)`. -/
def ArrayRef.call (w : Nat) (ndebug : Bool) (self : ArrayRef) (i j : Nat) :
    Except Fault ArrayRef :=
  ArrayRef.ctor_ptr w ndebug self.data_ i j

/-- The member `operator[](size_type n)`, both overloads. -/
def ArrayRef.index {T : Type} (ndebug : Bool) (mem : Mem T) (self : ArrayRef) (n : Nat) :
    Except Fault T :=
  match cassert ndebug (decide (n < self.size_)) with
  | .error e => .error e
  | .ok _ => deref mem (self.data_ + n)

/-- The member `front()`. -/
def ArrayRef.front {T : Type} (mem : Mem T) (self : ArrayRef) : Except Fault T :=
  deref mem (self.data_ + 0)

/-- The member `back()`; `size_ - 1` is a `size_type` subtraction. -/
def ArrayRef.back {T : Type} (w : Nat) (mem : Mem T) (self : ArrayRef) : Except Fault T :=
  deref mem (self.data_ + size_sub w self.size_ 1)

/-- The member `data()`. -/
def ArrayRef.data (self : ArrayRef) : Ptr := self.data_

/-- The member `begin()` (and `cbegin()`). -/
def ArrayRef.begin (self : ArrayRef) : Ptr := self.data_

/-- The member `end()` (and `cend()`). -/
def ArrayRef.end (self : ArrayRef) : Ptr := self.data_ + self.size_

/-- The member `empty()`. -/
def ArrayRef.empty (self : ArrayRef) : Bool := self.size_ == 0

/-- The member `size()`. -/
def ArrayRef.size (self : ArrayRef) : Nat := self.size_

/-- The free function `operator|(T* data, const slice& s)`. -/
def pipe_ptr (w : Nat) (ndebug : Bool) (data : Ptr) (s : slice) : Except Fault ArrayRef :=
  ArrayRef.ctor_ptr w ndebug data s.i s.j

/-- The free function `operator|(std::array<T, N>& v, const slice& s)`. -/
def pipe_array (w : Nat) (ndebug : Bool) (v : Container) (s : slice) : Except Fault ArrayRef :=
  ArrayRef.ctor_array w ndebug v s.i s.j

/-- The free function `operator|(std::vector<T>& v, const slice& s)`. -/
def pipe_vector (w : Nat) (ndebug : Bool) (v : Container) (s : slice) : Except Fault ArrayRef :=
  ArrayRef.ctor_vector w ndebug v s.i s.j

/-- The storage at address `p` holds exactly the elements `s`, in order. -/
def HoldsAt {T : Type} (mem : Mem T) (p : Ptr) (s : List T) : Prop :=
  ∀ k, k < s.length → mem (p + k) = s[k]?

/-- The data-model invariant of a view: each of its `size_` elements is live. -/
def ArrayRef.Valid {T : Type} (mem : Mem T) (v : ArrayRef) : Prop :=
  ∀ k, k < v.size_ → ∃ a, mem (v.data_ + k) = some a

/-- A memory whose only live elements are those of `s`, stored from address `p`. -/
def place {T : Type} (p : Ptr) (s : List T) : Mem T :=
  fun a => if p ≤ a then s[a - p]? else none

/-- The loop of `std::equal(first1, last1, first2)` as laid down by the C++
standard library, `for (; first1 != last1; ++first1, ++first2) if (!(*first1
== *first2)) return false; return true;`, with `n` the number of steps left
until `first1` reaches `last1`. -/
def equal_loop {T : Type} [BEq T] (mem : Mem T) : Nat → Ptr → Ptr → Except Fault Bool
  | 0, _, _ => .ok true
  | n + 1, first1, first2 =>
    match deref mem first1 with
    | .error e => .error e
    | .ok a =>
      match deref mem first2 with
      | .error e => .error e
      | .ok b =>
        if !(a == b) then .ok false else equal_loop mem n (first1 + 1) (first2 + 1)

/-- The algorithm `std::equal(first1, last1, first2)`. -/
def std_equal {T : Type} [BEq T] (mem : Mem T) (first1 last1 first2 : Ptr) :
    Except Fault Bool :=
  equal_loop mem (last1 - first1) first1 first2

/-- The loop of `std::lexicographical_compare(first1, last1, first2, last2)` as
laid down by the C++ standard library,
`for (; first1 != last1 && first2 != last2; ++first1, ++first2)
 { if (*first1 < *first2) return true; if (*first2 < *first1) return false; }
 return first1 == last1 && first2 != last2;`,
with `n1` and `n2` the numbers of steps left until `last1` and `last2`. -/
def lexicographical_loop {T : Type} [LT T] [DecidableRel (fun a b : T => a < b)]
    (mem : Mem T) : Nat → Nat → Ptr → Ptr → Except Fault Bool
  | 0, n2, _, _ => .ok (decide (n2 ≠ 0))
  | _ + 1, 0, _, _ => .ok false
  | n1 + 1, n2 + 1, first1, first2 =>
    match deref mem first1 with
    | .error e => .error e
    | .ok a =>
      match deref mem first2 with
      | .error e => .error e
      | .ok b =>
        if a < b then .ok true
        else if b < a then .ok false
        else lexicographical_loop mem n1 n2 (first1 + 1) (first2 + 1)

/-- The algorithm `std::lexicographical_compare(first1, last1, first2, last2)`. -/
def std_lexicographical_compare {T : Type} [LT T] [DecidableRel (fun a b : T => a < b)]
    (mem : Mem T) (first1 last1 first2 last2 : Ptr) : Except Fault Bool :=
  lexicographical_loop mem (last1 - first1) (last2 - first2) first1 first2

/-- The free function `operator==`; `&&` evaluates its right operand only when
the sizes agree. -/
def op_eq {T : Type} [BEq T] (mem : Mem T) (x y : ArrayRef) : Except Fault Bool :=
  if x.size == y.size then std_equal mem x.begin x.end y.begin else .ok false

/-- The free function `operator!=`. -/
def op_ne {T : Type} [BEq T] (mem : Mem T) (x y : ArrayRef) : Except Fault Bool :=
  match op_eq mem x y with
  | .error e => .error e
  | .ok b => .ok (!b)

/-- The free function `operator<`. -/
def op_lt {T : Type} [LT T] [DecidableRel (fun a b : T => a < b)]
    (mem : Mem T) (x y : ArrayRef) : Except Fault Bool :=
  std_lexicographical_compare mem x.begin x.end y.begin y.end

/-- The free function `operator>`. -/
def op_gt {T : Type} [LT T] [DecidableRel (fun a b : T => a < b)]
    (mem : Mem T) (x y : ArrayRef) : Except Fault Bool :=
  op_lt mem y x

/-- The free function `operator<=`. -/
def op_le {T : Type} [LT T] [DecidableRel (fun a b : T => a < b)]
    (mem : Mem T) (x y : ArrayRef) : Except Fault Bool :=
  match op_gt mem x y with
  | .error e => .error e
  | .ok b => .ok (!b)

/-- The free function `operator>=`. -/
def op_ge {T : Type} [LT T] [DecidableRel (fun a b : T => a < b)]
    (mem : Mem T) (x y : ArrayRef) : Except Fault Bool :=
  match op_lt mem x y with
  | .error e => .error e
  | .ok b => .ok (!b)

/-- The algorithm `std::swap(a, b)` on two values. -/
def std_swap {A : Type} (a b : A) : A × A :=
  let tmp := a
  let a := b
  let b := tmp
  (a, b)

/-- The member `swap(ArrayRef& other)`, as a step on the state made of the
memory and the two views: it returns the new `*this` and the new `other`. -/
def ArrayRef.swap {T : Type} (mem : Mem T) (self other : ArrayRef) :
    Mem T × ArrayRef × ArrayRef :=
  let d := std_swap self.data_ other.data_
  let n := std_swap self.size_ other.size_
  (mem, { data_ := d.1, size_ := n.1 }, { data_ := d.2, size_ := n.2 })

/-- The free function `swap(ArrayRef<T>& x, ArrayRef<T>& y)`. -/
def swap {T : Type} (mem : Mem T) (x y : ArrayRef) : Mem T × ArrayRef × ArrayRef :=
  x.swap mem y

/-- A memory holding `s` from address `p` and `t` from address `q`. -/
def place_two {T : Type} (p : Ptr) (s : List T) (q : Ptr) (t : List T) : Mem T :=
  fun a => match place p s a with
    | some v => some v
    | none => place q t a

/-- Elementwise `==` of two sequences of the same length, position by position
from the front, as `std::equal` scans them. -/
def seq_eq {T : Type} [BEq T] : List T → List T → Bool
  | [], [] => true
  | a :: xs, b :: ys => if !(a == b) then false else seq_eq xs ys
  | _, _ => false

/-- The lexicographic comparison of two sequences from the front, as
`std::lexicographical_compare` scans them. -/
def seq_lt {T : Type} [LT T] [DecidableRel (fun a b : T => a < b)] : List T → List T → Bool
  | [], [] => false
  | [], _ :: _ => true
  | _ :: _, [] => false
  | a :: xs, b :: ys => if a < b then true else if b < a then false else seq_lt xs ys

/-- The lexicographic order of the specification, on the element sequences of
two views: either some position `k < min(size(x), size(y))` has `x[k] < y[k]`
while `x[m]` and `y[m]` are equivalent (neither is less than the other) for all
`m < k`, or `x` is a strict initial part of `y`: `size(x) < size(y)` and every
position of `x` holds an element equivalent to that of `y`. -/
def LexLess {T : Type} [LT T] (mem : Mem T) (x y : ArrayRef) : Prop :=
  (∃ k, k < min x.size y.size ∧
    (∀ m, m < k → ∃ a b, mem (x.data_ + m) = some a ∧ mem (y.data_ + m) = some b ∧
      ¬ a < b ∧ ¬ b < a) ∧
    ∃ a b, mem (x.data_ + k) = some a ∧ mem (y.data_ + k) = some b ∧ a < b) ∨
  (x.size < y.size ∧
    ∀ m, m < x.size → ∃ a b, mem (x.data_ + m) = some a ∧ mem (y.data_ + m) = some b ∧
      ¬ a < b ∧ ¬ b < a)

/-- The result `r` of a construction is a view of the window `[i, j)` of the
storage `s`: it is a view, of size `j - i`, whose `at(k)` returns `s[i + k]`
for every `k < j - i`. -/
def IsViewOver {T : Type} (mem : Mem T) (s : List T) (i j : Nat)
    (r : Except Fault ArrayRef) : Prop :=
  ∃ v : ArrayRef, r = .ok v ∧ v.size = j - i ∧
    ∀ k, k < j - i → ∃ e, s[i + k]? = some e ∧ v.at mem k = .ok e

/-- The constructor `ArrayRef() {}`: both members keep their default member
initialisers. -/
def ArrayRef.ctor_default : ArrayRef := {}

/-- The member `cbegin()`. -/
def ArrayRef.cbegin (self : ArrayRef) : Ptr := self.data_

/-- The member `cend()`. -/
def ArrayRef.cend (self : ArrayRef) : Ptr := self.data_ + self.size_

/-- The class `std::reverse_iterator` over a pointer, as the C++ standard
library lays it down: it stores the pointer `current`. -/
structure reverse_iterator where
  current : Ptr
  deriving DecidableEq, Repr

/-- The read `*r` of a reverse iterator: `tmp = current; return *--tmp;`. -/
def reverse_iterator.deref {T : Type} (mem : Mem T) (r : reverse_iterator) : Except Fault T :=
  aref.deref mem (r.current - 1)

/-- The step `++r` of a reverse iterator: `--current`. -/
def reverse_iterator.next (r : reverse_iterator) : reverse_iterator :=
  { current := r.current - 1 }

/-- The member `rbegin()`, both overloads. -/
def ArrayRef.rbegin (self : ArrayRef) : reverse_iterator := { current := self.end }

/-- The member `rend()`, both overloads. -/
def ArrayRef.rend (self : ArrayRef) : reverse_iterator := { current := self.begin }

/-- The member `crbegin()`. -/
def ArrayRef.crbegin (self : ArrayRef) : reverse_iterator := { current := self.end }

/-- The member `crend()`. -/
def ArrayRef.crend (self : ArrayRef) : reverse_iterator := { current := self.begin }

/-- The loop `for (it = first; it != last; ++it) out.push_back(*it);` of a
caller that iterates forward, with `n` the number of steps left until `it`
reaches `last`; it returns the elements visited, in the order of the visits. -/
def visit_loop {T : Type} (mem : Mem T) : Nat → Ptr → Except Fault (List T)
  | 0, _ => .ok []
  | n + 1, it =>
    match deref mem it with
    | .error e => .error e
    | .ok a =>
      match visit_loop mem n (it + 1) with
      | .error e => .error e
      | .ok rest => .ok (a :: rest)

/-- Forward iteration from `first` to `last`. -/
def visit {T : Type} (mem : Mem T) (first last : Ptr) : Except Fault (List T) :=
  visit_loop mem (last - first) first

/-- The loop `for (r = first; r != last; ++r) out.push_back(*r);` of a caller
that iterates with reverse iterators, with `n` the number of steps left until
`r` reaches `last`. -/
def reverse_visit_loop {T : Type} (mem : Mem T) :
    Nat → reverse_iterator → Except Fault (List T)
  | 0, _ => .ok []
  | n + 1, r =>
    match r.deref mem with
    | .error e => .error e
    | .ok a =>
      match reverse_visit_loop mem n r.next with
      | .error e => .error e
      | .ok rest => .ok (a :: rest)

/-- Reverse iteration from `first` to `last`. -/
def reverse_visit {T : Type} (mem : Mem T) (first last : reverse_iterator) :
    Except Fault (List T) :=
  reverse_visit_loop mem (first.current - last.current) first

/-- The assignment `*p = val` through a pointer or a reference: the element at
`p` is replaced, every other element stays. -/
def store {T : Type} (mem : Mem T) (p : Ptr) (val : T) : Except Fault (Mem T) :=
  match mem p with
  | some _ => .ok (fun a => if a = p then some val else mem a)
  | none => .error .invalid_access

/-- The statement `self.at(n) = val`, an assignment through the reference that
the non-const `at` returns. -/
def ArrayRef.at_assign {T : Type} (mem : Mem T) (self : ArrayRef) (n : Nat) (val : T) :
    Except Fault (Mem T) :=
  if n ≥ self.size_ then .error .out_of_range else store mem (self.data_ + n) val

/-- The statement `self[n] = val`, an assignment through the reference that
the non-const `operator[]` returns. -/
def ArrayRef.index_assign {T : Type} (ndebug : Bool) (mem : Mem T) (self : ArrayRef)
    (n : Nat) (val : T) : Except Fault (Mem T) :=
  match cassert ndebug (decide (n < self.size_)) with
  | .error e => .error e
  | .ok _ => store mem (self.data_ + n) val

/-- The memory in which the elements of the windows of `x` and `y` are those of
`mem` and no other address holds a live element. -/
def window_only {T : Type} (mem : Mem T) (x y : ArrayRef) : Mem T :=
  fun a =>
    if (x.data_ ≤ a ∧ a < x.data_ + x.size_) ∨ (y.data_ ≤ a ∧ a < y.data_ + y.size_)
    then mem a else none

/-! ## Arithmetic of `size_type` -/

theorem size_sub_of_le (w i j : Nat) (hij : i ≤ j) (hj : j < 2 ^ w) :
    size_sub w j i = j - i := by
  have hi : i < 2 ^ w := lt_of_le_of_lt hij hj
  unfold size_sub
  rw [Nat.mod_eq_of_lt hj, Nat.mod_eq_of_lt hi]
  have h : j + (2 ^ w - i) = (j - i) + 2 ^ w := by omega
  rw [h, Nat.add_mod_right]
  exact Nat.mod_eq_of_lt (by omega)

theorem size_sub_of_gt (w i j : Nat) (hji : j < i) (hi : i < 2 ^ w) :
    size_sub w j i = 2 ^ w - (i - j) := by
  have hj : j < 2 ^ w := lt_trans hji hi
  unfold size_sub
  rw [Nat.mod_eq_of_lt hj, Nat.mod_eq_of_lt hi]
  have h : j + (2 ^ w - i) = 2 ^ w - (i - j) := by omega
  rw [h]
  exact Nat.mod_eq_of_lt (by omega)

theorem size_sub_lt (w i j : Nat) : size_sub w j i < 2 ^ w :=
  Nat.mod_lt _ (Nat.two_pow_pos w)

/-! ## Construction -/

theorem cassert_true (ndebug : Bool) : cassert ndebug true = .ok () := by
  cases ndebug <;> rfl

theorem ctor_ptr_ok (w : Nat) (ndebug : Bool) (data i j : Nat) :
    ArrayRef.ctor_ptr w ndebug data i j
      = .ok { data_ := data + i, size_ := size_sub w j i } := by
  simp [ArrayRef.ctor_ptr, cassert_true]

theorem ctor_array_ok (w : Nat) (ndebug : Bool) (v : Container) (i j : Nat)
    (h : size_sub w j i ≤ v.size) :
    ArrayRef.ctor_array w ndebug v i j
      = .ok { data_ := v.data + i, size_ := size_sub w j i } := by
  simp [ArrayRef.ctor_array, cassert_true, h]

theorem ctor_vector_ok (w : Nat) (ndebug : Bool) (v : Container) (i j : Nat)
    (h : size_sub w j i ≤ v.size) :
    ArrayRef.ctor_vector w ndebug v i j
      = .ok { data_ := v.data + i, size_ := size_sub w j i } := by
  simp [ArrayRef.ctor_vector, cassert_true, h]

theorem at_of_lt {T : Type} (mem : Mem T) (v : ArrayRef) (n : Nat) (e : T)
    (hn : n < v.size_) (he : mem (v.data_ + n) = some e) : v.at mem n = .ok e := by
  simp [ArrayRef.at, deref, Nat.not_le.mpr hn, he]

theorem holdsAt_place {T : Type} (p : Ptr) (s : List T) : HoldsAt (place p s) p s := by
  intro k _
  simp [place]

/-- The elements of a window `[i, i + n)` of a storage, read through a view. -/
theorem at_window {T : Type} (mem : Mem T) (s : List T) (p i n : Nat)
    (hs : HoldsAt mem p s) (hn : i + n ≤ s.length) (k : Nat) (hk : k < n) :
    ∃ e, s[i + k]? = some e ∧ (ArrayRef.mk (p + i) n).at mem k = .ok e := by
  have hlt : i + k < s.length := by omega
  refine ⟨s[i + k], List.getElem?_eq_getElem hlt, ?_⟩
  apply at_of_lt _ _ _ _ hk
  show mem (p + i + k) = some s[i + k]
  rw [Nat.add_assoc, hs (i + k) hlt, List.getElem?_eq_getElem hlt]

/-- C1. For a storage `s` of `N` elements at address `p` and `0 <= i <= j <= N`,
each of the three constructors and each of the three `operator|` overloads
returns a view of size `j - i` whose `at(k)` is `s[i + k]` for every `k < j - i`. -/
theorem C1_view_over_range {T : Type} (w : Nat) (ndebug : Bool) (mem : Mem T)
    (s : List T) (p i j : Nat) (hij : i ≤ j) (hj : j ≤ s.length)
    (hN : s.length < 2 ^ w) (hs : HoldsAt mem p s) :
    IsViewOver mem s i j (ArrayRef.ctor_ptr w ndebug p i j) ∧
    IsViewOver mem s i j (ArrayRef.ctor_array w ndebug ⟨p, s.length⟩ i j) ∧
    IsViewOver mem s i j (ArrayRef.ctor_vector w ndebug ⟨p, s.length⟩ i j) ∧
    IsViewOver mem s i j (pipe_ptr w ndebug p ⟨i, j⟩) ∧
    IsViewOver mem s i j (pipe_array w ndebug ⟨p, s.length⟩ ⟨i, j⟩) ∧
    IsViewOver mem s i j (pipe_vector w ndebug ⟨p, s.length⟩ ⟨i, j⟩) := by
  have hsz : size_sub w j i = j - i := size_sub_of_le w i j hij (by omega)
  have hle : size_sub w j i ≤ s.length := by omega
  have key : ∀ r : Except Fault ArrayRef,
      r = .ok { data_ := p + i, size_ := size_sub w j i } → IsViewOver mem s i j r := by
    intro r hr
    refine ⟨_, hr, hsz, ?_⟩
    intro k hk
    rw [hsz]
    exact at_window mem s p i (j - i) hs (by omega) k hk
  refine ⟨key _ ?_, key _ ?_, key _ ?_, key _ ?_, key _ ?_, key _ ?_⟩
  · exact ctor_ptr_ok w ndebug p i j
  · exact ctor_array_ok w ndebug ⟨p, s.length⟩ i j hle
  · exact ctor_vector_ok w ndebug ⟨p, s.length⟩ i j hle
  · exact ctor_ptr_ok w ndebug p i j
  · exact ctor_array_ok w ndebug ⟨p, s.length⟩ i j hle
  · exact ctor_vector_ok w ndebug ⟨p, s.length⟩ i j hle

/-- C1 at the storage `[10, 20, 30, 40, 50]` and the range `[1, 4)`. -/
theorem C1_view_over_range_witness :
    IsViewOver (place 100 [10, 20, 30, 40, 50]) [10, 20, 30, 40, 50] 1 4
      (ArrayRef.ctor_ptr 64 false 100 1 4) ∧
    IsViewOver (place 100 [10, 20, 30, 40, 50]) [10, 20, 30, 40, 50] 1 4
      (ArrayRef.ctor_array 64 false ⟨100, [10, 20, 30, 40, 50].length⟩ 1 4) ∧
    IsViewOver (place 100 [10, 20, 30, 40, 50]) [10, 20, 30, 40, 50] 1 4
      (ArrayRef.ctor_vector 64 false ⟨100, [10, 20, 30, 40, 50].length⟩ 1 4) ∧
    IsViewOver (place 100 [10, 20, 30, 40, 50]) [10, 20, 30, 40, 50] 1 4
      (pipe_ptr 64 false 100 ⟨1, 4⟩) ∧
    IsViewOver (place 100 [10, 20, 30, 40, 50]) [10, 20, 30, 40, 50] 1 4
      (pipe_array 64 false ⟨100, [10, 20, 30, 40, 50].length⟩ ⟨1, 4⟩) ∧
    IsViewOver (place 100 [10, 20, 30, 40, 50]) [10, 20, 30, 40, 50] 1 4
      (pipe_vector 64 false ⟨100, [10, 20, 30, 40, 50].length⟩ ⟨1, 4⟩) :=
  C1_view_over_range 64 false (place 100 [10, 20, 30, 40, 50]) [10, 20, 30, 40, 50]
    100 1 4 (by decide) (by decide) (by decide) (holdsAt_place 100 _)

/-- C2. For a view `v` whose elements are live and every index `n`, `v.at(n)`
throws `out_of_range` exactly when `n >= v.size()`, and for `n < v.size()` it
returns the element stored at position `n` of the window. -/
theorem C2_at_checked {T : Type} (mem : Mem T) (v : ArrayRef) (n : Nat)
    (hv : v.Valid mem) :
    (v.at mem n = .error .out_of_range ↔ n ≥ v.size) ∧
    (n < v.size → ∃ e, mem (v.data_ + n) = some e ∧ v.at mem n = .ok e) := by
  constructor
  · constructor
    · intro h
      by_contra hlt
      obtain ⟨e, he⟩ := hv n (Nat.not_le.mp hlt)
      rw [at_of_lt mem v n e (Nat.not_le.mp hlt) he] at h
      cases h
    · intro h
      have h2 : n ≥ v.size_ := h
      simp [ArrayRef.at, h2]
  · intro hlt
    obtain ⟨e, he⟩ := hv n hlt
    exact ⟨e, he, at_of_lt mem v n e hlt he⟩

theorem valid_of_holdsAt {T : Type} (mem : Mem T) (s : List T) (p i n : Nat)
    (hs : HoldsAt mem p s) (hn : i + n ≤ s.length) :
    (ArrayRef.mk (p + i) n).Valid mem := by
  intro k hk
  have hk2 : k < n := hk
  have hlt : i + k < s.length := by omega
  refine ⟨s[i + k], ?_⟩
  show mem (p + i + k) = some s[i + k]
  rw [Nat.add_assoc, hs (i + k) hlt, List.getElem?_eq_getElem hlt]

/-- C2 at the view over `[1, 4)` of `[10, 20, 30, 40, 50]` and the index `5`. -/
theorem C2_at_checked_witness :
    ((ArrayRef.mk 101 3).at (place 100 [10, 20, 30, 40, 50]) 5 = .error .out_of_range
        ↔ 5 ≥ (ArrayRef.mk 101 3).size) ∧
    (5 < (ArrayRef.mk 101 3).size →
      ∃ e, place 100 [10, 20, 30, 40, 50] ((ArrayRef.mk 101 3).data_ + 5) = some e ∧
        (ArrayRef.mk 101 3).at (place 100 [10, 20, 30, 40, 50]) 5 = .ok e) :=
  C2_at_checked (place 100 [10, 20, 30, 40, 50]) ⟨101, 3⟩ 5
    (valid_of_holdsAt _ [10, 20, 30, 40, 50] 100 1 3 (holdsAt_place 100 _) (by decide))

/-! ## Sub-slicing -/

/-- C3. For the view over `[a, b)` of a storage `s` (built by any constructor)
and `0 <= c <= d <= b - a`, the sub-slice `view(c, d)` and the view built
directly from the storage over `[a + c, a + d)` (by any constructor) both
exist, have the same size `d - c`, and hold the same element `s[a + c + k]` at
every position `k`. -/
theorem C3_subslice_composition {T : Type} (w : Nat) (ndebug : Bool) (mem : Mem T)
    (s : List T) (p a b c d : Nat) (hab : a ≤ b) (hb : b ≤ s.length)
    (hN : s.length < 2 ^ w) (hcd : c ≤ d) (hd : d ≤ b - a) (hs : HoldsAt mem p s) :
    ∃ view sub direct : ArrayRef,
      (ArrayRef.ctor_ptr w ndebug p a b = .ok view ∧
        ArrayRef.ctor_array w ndebug ⟨p, s.length⟩ a b = .ok view ∧
        ArrayRef.ctor_vector w ndebug ⟨p, s.length⟩ a b = .ok view) ∧
      view.call w ndebug c d = .ok sub ∧
      (ArrayRef.ctor_ptr w ndebug p (a + c) (a + d) = .ok direct ∧
        ArrayRef.ctor_array w ndebug ⟨p, s.length⟩ (a + c) (a + d) = .ok direct ∧
        ArrayRef.ctor_vector w ndebug ⟨p, s.length⟩ (a + c) (a + d) = .ok direct) ∧
      sub.size = d - c ∧ direct.size = sub.size ∧
      ∀ k, k < sub.size → ∃ e, s[a + c + k]? = some e ∧
        sub.at mem k = .ok e ∧ direct.at mem k = .ok e := by
  have h1 : size_sub w b a = b - a := size_sub_of_le w a b hab (by omega)
  have h2 : size_sub w d c = d - c := size_sub_of_le w c d hcd (by omega)
  have h3 : size_sub w (a + d) (a + c) = d - c := by
    rw [size_sub_of_le w (a + c) (a + d) (by omega) (by omega)]; omega
  refine ⟨{ data_ := p + a, size_ := b - a }, { data_ := p + a + c, size_ := d - c },
    { data_ := p + (a + c), size_ := d - c }, ⟨?_, ?_, ?_⟩, ?_, ⟨?_, ?_, ?_⟩, rfl, rfl, ?_⟩
  · rw [ctor_ptr_ok, h1]
  · rw [ctor_array_ok _ _ _ _ _ (by rw [h1]; show b - a ≤ s.length; omega), h1]
  · rw [ctor_vector_ok _ _ _ _ _ (by rw [h1]; show b - a ≤ s.length; omega), h1]
  · show ArrayRef.ctor_ptr w ndebug (p + a) c d = _
    rw [ctor_ptr_ok, h2]
  · rw [ctor_ptr_ok, h3]
  · rw [ctor_array_ok _ _ _ _ _ (by rw [h3]; show d - c ≤ s.length; omega), h3]
  · rw [ctor_vector_ok _ _ _ _ _ (by rw [h3]; show d - c ≤ s.length; omega), h3]
  · intro k hk
    have hk2 : k < d - c := hk
    obtain ⟨e, he, hat⟩ := at_window mem s p (a + c) (d - c) hs (by omega) k hk2
    refine ⟨e, he, ?_, hat⟩
    rw [← hat, Nat.add_assoc]

/-- C3 at the storage `[10, 20, 30, 40, 50]`, the view over `[1, 5)` and the
sub-range `[1, 3)`. -/
theorem C3_subslice_composition_witness :
    ∃ view sub direct : ArrayRef,
      (ArrayRef.ctor_ptr 64 false 100 1 5 = .ok view ∧
        ArrayRef.ctor_array 64 false ⟨100, [10, 20, 30, 40, 50].length⟩ 1 5 = .ok view ∧
        ArrayRef.ctor_vector 64 false ⟨100, [10, 20, 30, 40, 50].length⟩ 1 5 = .ok view) ∧
      view.call 64 false 1 3 = .ok sub ∧
      (ArrayRef.ctor_ptr 64 false 100 (1 + 1) (1 + 3) = .ok direct ∧
        ArrayRef.ctor_array 64 false ⟨100, [10, 20, 30, 40, 50].length⟩ (1 + 1) (1 + 3)
          = .ok direct ∧
        ArrayRef.ctor_vector 64 false ⟨100, [10, 20, 30, 40, 50].length⟩ (1 + 1) (1 + 3)
          = .ok direct) ∧
      sub.size = 3 - 1 ∧ direct.size = sub.size ∧
      ∀ k, k < sub.size → ∃ e, [10, 20, 30, 40, 50][1 + 1 + k]? = some e ∧
        sub.at (place 100 [10, 20, 30, 40, 50]) k = .ok e ∧
        direct.at (place 100 [10, 20, 30, 40, 50]) k = .ok e :=
  C3_subslice_composition 64 false (place 100 [10, 20, 30, 40, 50]) [10, 20, 30, 40, 50]
    100 1 5 1 3 (by decide) (by decide) (by decide) (by decide) (by decide)
    (holdsAt_place 100 _)

/-! ## Views and the sequences they denote -/

theorem holdsAt_cons {T : Type} (mem : Mem T) (p : Ptr) (a : T) (xs : List T) :
    HoldsAt mem p (a :: xs) ↔ mem p = some a ∧ HoldsAt mem (p + 1) xs := by
  constructor
  · intro h
    refine ⟨by simpa using h 0 (by simp), ?_⟩
    intro k hk
    have := h (k + 1) (by simpa using hk)
    simpa [Nat.add_assoc, Nat.add_comm 1 k] using this
  · rintro ⟨h0, h1⟩ k hk
    cases k with
    | zero => simpa using h0
    | succ k =>
      have := h1 k (by simpa using hk)
      simpa [Nat.add_assoc, Nat.add_comm 1 k] using this

theorem exists_list_of_live {T : Type} (mem : Mem T) :
    ∀ (n : Nat) (p : Ptr), (∀ k, k < n → ∃ a, mem (p + k) = some a) →
      ∃ xs : List T, xs.length = n ∧ HoldsAt mem p xs := by
  intro n
  induction n with
  | zero =>
    intro p _
    exact ⟨[], rfl, fun k hk => absurd hk (Nat.not_lt_zero k)⟩
  | succ n ih =>
    intro p h
    obtain ⟨a, ha⟩ := h 0 (Nat.succ_pos n)
    obtain ⟨xs, hlen, hxs⟩ := ih (p + 1) (fun k hk => by
      have := h (k + 1) (by omega)
      simpa [Nat.add_assoc, Nat.add_comm 1 k] using this)
    exact ⟨a :: xs, by simp [hlen], (holdsAt_cons mem p a xs).mpr ⟨by simpa using ha, hxs⟩⟩

theorem exists_list_of_valid {T : Type} (mem : Mem T) (v : ArrayRef) (hv : v.Valid mem) :
    ∃ xs : List T, xs.length = v.size_ ∧ HoldsAt mem v.data_ xs :=
  exists_list_of_live mem v.size_ v.data_ hv

theorem holdsAt_elem {T : Type} (mem : Mem T) (p : Ptr) (xs : List T)
    (h : HoldsAt mem p xs) (k : Nat) (hk : k < xs.length) :
    mem (p + k) = some xs[k] := by
  rw [h k hk, List.getElem?_eq_getElem hk]

/-! ## Equality -/

theorem equal_loop_eq {T : Type} [BEq T] (mem : Mem T) :
    ∀ (xs ys : List T) (p q : Ptr), HoldsAt mem p xs → HoldsAt mem q ys →
      xs.length = ys.length → equal_loop mem xs.length p q = .ok (seq_eq xs ys) := by
  intro xs
  induction xs with
  | nil =>
    intro ys p q _ _ hlen
    cases ys with
    | nil => rfl
    | cons b ys => simp at hlen
  | cons a xs ih =>
    intro ys p q hp hq hlen
    cases ys with
    | nil => simp at hlen
    | cons b ys =>
      obtain ⟨ha, hxs⟩ := (holdsAt_cons mem p a xs).mp hp
      obtain ⟨hb, hys⟩ := (holdsAt_cons mem q b ys).mp hq
      have hl : xs.length = ys.length := by simpa using hlen
      simp only [List.length_cons, equal_loop, deref, ha, hb, seq_eq]
      by_cases hab : (a == b) = true
      · simp [hab, ih ys (p + 1) (q + 1) hxs hys hl]
      · simp [hab]

theorem seq_eq_iff {T : Type} [BEq T] :
    ∀ (xs ys : List T), xs.length = ys.length →
      (seq_eq xs ys = true ↔
        ∀ k (h1 : k < xs.length) (h2 : k < ys.length), (xs[k] == ys[k]) = true) := by
  intro xs
  induction xs with
  | nil =>
    intro ys hlen
    cases ys with
    | nil => simp [seq_eq]
    | cons b ys => simp at hlen
  | cons a xs ih =>
    intro ys hlen
    cases ys with
    | nil => simp at hlen
    | cons b ys =>
      have hl : xs.length = ys.length := by simpa using hlen
      by_cases hab : (a == b) = true
      · simp only [seq_eq, hab, Bool.not_true, Bool.false_eq_true, if_false, ih ys hl]
        constructor
        · intro h k h1 h2
          cases k with
          | zero => simpa using hab
          | succ k => simpa using h k (by simpa using h1) (by simpa using h2)
        · intro h k h1 h2
          simpa using h (k + 1) (by simpa using h1) (by simpa using h2)
      · simp only [seq_eq, hab, Bool.not_false, if_true]
        constructor
        · intro h; cases h
        · intro h
          exact absurd (by simpa using h 0 (by simp) (by simp)) hab

theorem op_eq_eq {T : Type} [BEq T] (mem : Mem T) (x y : ArrayRef) (xs ys : List T)
    (hx : xs.length = x.size_) (hxs : HoldsAt mem x.data_ xs)
    (hy : ys.length = y.size_) (hys : HoldsAt mem y.data_ ys) :
    op_eq mem x y = .ok (decide (xs.length = ys.length) && seq_eq xs ys) := by
  unfold op_eq std_equal ArrayRef.size ArrayRef.begin ArrayRef.end
  by_cases h : x.size_ = y.size_
  · have hl : xs.length = ys.length := by omega
    rw [Nat.add_sub_cancel_left, ← hx, equal_loop_eq mem xs ys _ _ hxs hys hl]
    simp [h, hl, hx, hy]
  · have hl : ¬ xs.length = ys.length := by omega
    simp [h, hl]

/-- C4. For views `x` and `y` whose elements are live, `x == y` returns, and it
returns `true` exactly when the sizes agree and `x[k] == y[k]` holds for every
`k < x.size()`; in particular the views built over the same range of two
storages at different addresses whose elements agree under `==` are equal. -/
theorem C4_equality_by_value {T : Type} [BEq T] (mem : Mem T) (x y : ArrayRef)
    (hx : x.Valid mem) (hy : y.Valid mem)
    (w : Nat) (ndebug : Bool) (s t : List T) (p q i j : Nat) (u v : ArrayRef)
    (hs : HoldsAt mem p s) (ht : HoldsAt mem q t) (hlen : s.length = t.length)
    (hst : ∀ k (h1 : k < s.length) (h2 : k < t.length), (s[k] == t[k]) = true)
    (hij : i ≤ j) (hj : j ≤ s.length) (hN : s.length < 2 ^ w)
    (hu : ArrayRef.ctor_ptr w ndebug p i j = .ok u)
    (hv : ArrayRef.ctor_ptr w ndebug q i j = .ok v) :
    (∃ b, op_eq mem x y = .ok b ∧
      (b = true ↔ x.size = y.size ∧
        ∀ k, k < x.size → ∃ a c, mem (x.data_ + k) = some a ∧
          mem (y.data_ + k) = some c ∧ (a == c) = true)) ∧
    op_eq mem u v = .ok true := by
  have main : ∀ x y : ArrayRef, x.Valid mem → y.Valid mem →
      ∃ b, op_eq mem x y = .ok b ∧
      (b = true ↔ x.size = y.size ∧
        ∀ k, k < x.size → ∃ a c, mem (x.data_ + k) = some a ∧
          mem (y.data_ + k) = some c ∧ (a == c) = true) := by
    intro x y hx hy
    obtain ⟨xs, hxl, hxs⟩ := exists_list_of_valid mem x hx
    obtain ⟨ys, hyl, hys⟩ := exists_list_of_valid mem y hy
    refine ⟨_, op_eq_eq mem x y xs ys hxl hxs hyl hys, ?_⟩
    unfold ArrayRef.size
    by_cases hl : xs.length = ys.length
    · rw [decide_eq_true hl, Bool.true_and, seq_eq_iff xs ys hl]
      constructor
      · intro h
        refine ⟨by omega, fun k hk => ?_⟩
        have h1 : k < xs.length := by omega
        have h2 : k < ys.length := by omega
        exact ⟨xs[k], ys[k], holdsAt_elem mem _ xs hxs k h1,
          holdsAt_elem mem _ ys hys k h2, h k h1 h2⟩
      · rintro ⟨_, h⟩ k h1 h2
        obtain ⟨a, c, ha, hc, hac⟩ := h k (by omega)
        rw [holdsAt_elem mem _ xs hxs k h1] at ha
        rw [holdsAt_elem mem _ ys hys k h2] at hc
        cases ha; cases hc
        exact hac
    · have hne : ¬ x.size_ = y.size_ := by omega
      simp [hl, hne]
  refine ⟨main x y hx hy, ?_⟩
  have hsz : size_sub w j i = j - i := size_sub_of_le w i j hij (by omega)
  rw [ctor_ptr_ok, hsz] at hu hv
  cases hu; cases hv
  have hvu : (ArrayRef.mk (p + i) (j - i)).Valid mem :=
    valid_of_holdsAt mem s p i (j - i) hs (by omega)
  have hvv : (ArrayRef.mk (q + i) (j - i)).Valid mem :=
    valid_of_holdsAt mem t q i (j - i) ht (by omega)
  obtain ⟨b, hb, hiff⟩ := main _ _ hvu hvv
  rw [hb]
  congr 1
  rw [hiff]
  refine ⟨rfl, fun k hk => ?_⟩
  have hk2 : k < j - i := hk
  have h1 : i + k < s.length := by omega
  have h2 : i + k < t.length := by omega
  refine ⟨s[i + k], t[i + k], ?_, ?_, hst (i + k) h1 h2⟩
  · show mem (p + i + k) = _
    rw [Nat.add_assoc]; exact holdsAt_elem mem p s hs (i + k) h1
  · show mem (q + i + k) = _
    rw [Nat.add_assoc]; exact holdsAt_elem mem q t ht (i + k) h2

/-- C4 at two copies of `[10, 20, 30, 40, 50]`, stored at addresses `100` and
`200`, and the views over `[1, 4)` of each. -/
theorem C4_equality_by_value_witness :
    (∃ b, op_eq (place_two 100 [10, 20, 30, 40, 50] 200 [10, 20, 30, 40, 50])
        (ArrayRef.mk 101 3) (ArrayRef.mk 201 3) = .ok b ∧
      (b = true ↔ (ArrayRef.mk 101 3).size = (ArrayRef.mk 201 3).size ∧
        ∀ k, k < (ArrayRef.mk 101 3).size → ∃ a c,
          place_two 100 [10, 20, 30, 40, 50] 200 [10, 20, 30, 40, 50]
            ((ArrayRef.mk 101 3).data_ + k) = some a ∧
          place_two 100 [10, 20, 30, 40, 50] 200 [10, 20, 30, 40, 50]
            ((ArrayRef.mk 201 3).data_ + k) = some c ∧ (a == c) = true)) ∧
    op_eq (place_two 100 [10, 20, 30, 40, 50] 200 [10, 20, 30, 40, 50])
      (ArrayRef.mk 101 3) (ArrayRef.mk 201 3) = .ok true :=
  C4_equality_by_value (place_two 100 [10, 20, 30, 40, 50] 200 [10, 20, 30, 40, 50])
    ⟨101, 3⟩ ⟨201, 3⟩
    (fun k hk => by
      have hk3 : k < 3 := hk
      interval_cases k <;> exact ⟨_, rfl⟩)
    (fun k hk => by
      have hk3 : k < 3 := hk
      interval_cases k <;> exact ⟨_, rfl⟩)
    64 false [10, 20, 30, 40, 50] [10, 20, 30, 40, 50] 100 200 1 4 ⟨101, 3⟩ ⟨201, 3⟩
    (fun k hk => by
      have hk5 : k < 5 := hk
      interval_cases k <;> rfl)
    (fun k hk => by
      have hk5 : k < 5 := hk
      interval_cases k <;> rfl)
    rfl (fun k h1 _ => by simp) (by decide) (by decide) (by decide)
    (by decide) (by decide)

/-! ## Ordering -/

theorem lexicographical_loop_eq {T : Type} [LT T] [DecidableRel (fun a b : T => a < b)]
    (mem : Mem T) :
    ∀ (xs ys : List T) (p q : Ptr), HoldsAt mem p xs → HoldsAt mem q ys →
      lexicographical_loop mem xs.length ys.length p q = .ok (seq_lt xs ys) := by
  intro xs
  induction xs with
  | nil =>
    intro ys p q _ _
    cases ys with
    | nil => rfl
    | cons b ys => simp [lexicographical_loop, seq_lt]
  | cons a xs ih =>
    intro ys p q hp hq
    cases ys with
    | nil => simp [lexicographical_loop, seq_lt]
    | cons b ys =>
      obtain ⟨ha, hxs⟩ := (holdsAt_cons mem p a xs).mp hp
      obtain ⟨hb, hys⟩ := (holdsAt_cons mem q b ys).mp hq
      simp only [List.length_cons, lexicographical_loop, deref, ha, hb, seq_lt]
      by_cases h1 : a < b
      · simp [h1]
      · by_cases h2 : b < a
        · simp [h1, h2]
        · simp [h1, h2, ih ys (p + 1) (q + 1) hxs hys]

theorem op_lt_eq {T : Type} [LT T] [DecidableRel (fun a b : T => a < b)]
    (mem : Mem T) (x y : ArrayRef) (xs ys : List T)
    (hx : xs.length = x.size_) (hxs : HoldsAt mem x.data_ xs)
    (hy : ys.length = y.size_) (hys : HoldsAt mem y.data_ ys) :
    op_lt mem x y = .ok (seq_lt xs ys) := by
  unfold op_lt std_lexicographical_compare ArrayRef.begin ArrayRef.end
  rw [Nat.add_sub_cancel_left, Nat.add_sub_cancel_left, ← hx, ← hy]
  exact lexicographical_loop_eq mem xs ys _ _ hxs hys

theorem lexLess_succ {T : Type} [LT T] (mem : Mem T) (p q n1 n2 : Nat) (a b : T)
    (ha : mem p = some a) (hb : mem q = some b) :
    LexLess mem ⟨p, n1 + 1⟩ ⟨q, n2 + 1⟩ ↔
      a < b ∨ (¬ a < b ∧ ¬ b < a ∧ LexLess mem ⟨p + 1, n1⟩ ⟨q + 1, n2⟩) := by
  have sh : ∀ r m : Nat, r + (m + 1) = r + 1 + m := fun r m => by omega
  have zero : ∀ a1 b1 : T, mem (p + 0) = some a1 → mem (q + 0) = some b1 →
      a1 = a ∧ b1 = b := by
    intro a1 b1 h1 h2
    rw [Nat.add_zero, ha] at h1
    rw [Nat.add_zero, hb] at h2
    cases h1; cases h2
    exact ⟨rfl, rfl⟩
  unfold LexLess ArrayRef.size
  simp only []
  constructor
  · rintro (⟨k, hk, hpre, a1, b1, h1, h2, hlt⟩ | ⟨hlen, hall⟩)
    · cases k with
      | zero =>
        obtain ⟨e1, e2⟩ := zero a1 b1 h1 h2
        subst e1; subst e2
        exact Or.inl hlt
      | succ k =>
        obtain ⟨a0, b0, g1, g2, n1a, n2a⟩ := hpre 0 (Nat.succ_pos k)
        obtain ⟨e1, e2⟩ := zero a0 b0 g1 g2
        subst e1; subst e2
        refine Or.inr ⟨n1a, n2a, Or.inl ⟨k, ?_, ?_, a1, b1, ?_, ?_, hlt⟩⟩
        · simp only [lt_min_iff] at hk ⊢
          omega
        · intro m hm
          have := hpre (m + 1) (by omega)
          rwa [sh p m, sh q m] at this
        · rwa [sh p k] at h1
        · rwa [sh q k] at h2
    · obtain ⟨a0, b0, g1, g2, n1a, n2a⟩ := hall 0 (Nat.succ_pos n1)
      obtain ⟨e1, e2⟩ := zero a0 b0 g1 g2
      subst e1; subst e2
      refine Or.inr ⟨n1a, n2a, Or.inr ⟨by omega, ?_⟩⟩
      intro m hm
      have := hall (m + 1) (by omega)
      rwa [sh p m, sh q m] at this
  · rintro (hlt | ⟨n1a, n2a, ⟨k, hk, hpre, a1, b1, h1, h2, hlt⟩ | ⟨hlen, hall⟩⟩)
    · refine Or.inl ⟨0, ?_, ?_, a, b, by simpa using ha, by simpa using hb, hlt⟩
      · simp only [lt_min_iff]
        omega
      · intro m hm
        exact absurd hm (Nat.not_lt_zero m)
    · refine Or.inl ⟨k + 1, ?_, ?_, a1, b1, ?_, ?_, hlt⟩
      · simp only [lt_min_iff] at hk ⊢
        omega
      · intro m hm
        cases m with
        | zero => exact ⟨a, b, by simpa using ha, by simpa using hb, n1a, n2a⟩
        | succ m =>
          have := hpre m (by omega)
          rwa [← sh p m, ← sh q m] at this
      · rwa [← sh p k] at h1
      · rwa [← sh q k] at h2
    · refine Or.inr ⟨by omega, ?_⟩
      intro m hm
      cases m with
      | zero => exact ⟨a, b, by simpa using ha, by simpa using hb, n1a, n2a⟩
      | succ m =>
        have := hall m (by omega)
        rwa [← sh p m, ← sh q m] at this

theorem seq_lt_iff_lexLess {T : Type} [LT T] [DecidableRel (fun a b : T => a < b)]
    (mem : Mem T) :
    ∀ (xs ys : List T) (p q : Ptr), HoldsAt mem p xs → HoldsAt mem q ys →
      (seq_lt xs ys = true ↔ LexLess mem ⟨p, xs.length⟩ ⟨q, ys.length⟩) := by
  intro xs
  induction xs with
  | nil =>
    intro ys p q _ _
    cases ys with
    | nil => simp [seq_lt, LexLess, ArrayRef.size]
    | cons b ys => simp [seq_lt, LexLess, ArrayRef.size]
  | cons a xs ih =>
    intro ys p q hp hq
    cases ys with
    | nil => simp [seq_lt, LexLess, ArrayRef.size]
    | cons b ys =>
      obtain ⟨ha, hxs⟩ := (holdsAt_cons mem p a xs).mp hp
      obtain ⟨hb, hys⟩ := (holdsAt_cons mem q b ys).mp hq
      rw [List.length_cons, List.length_cons, lexLess_succ mem p q _ _ a b ha hb,
        ← ih ys (p + 1) (q + 1) hxs hys]
      by_cases h1 : a < b
      · simp [seq_lt, h1]
      · by_cases h2 : b < a
        · simp [seq_lt, h1, h2]
        · simp [seq_lt, h1, h2]

/-- C5. For views `x` and `y` whose elements are live, `x < y` returns, and it
returns `true` exactly when the element sequence of `x` is lexicographically
less than that of `y` in the sense of `LexLess`; on natural numbers
`[1, 2] < [1, 2, 3]`, `[1, 2, 3] < [1, 3]` and `[] < [1]`. -/
theorem C5_less_is_lexicographic {T : Type} [LT T] [DecidableRel (fun a b : T => a < b)]
    (mem : Mem T) (x y : ArrayRef) (hx : x.Valid mem) (hy : y.Valid mem) :
    (∃ b, op_lt mem x y = .ok b ∧ (b = true ↔ LexLess mem x y)) ∧
    op_lt (place_two 100 [1, 2] 200 [1, 2, 3]) ⟨100, 2⟩ ⟨200, 3⟩ = .ok true ∧
    op_lt (place_two 100 [1, 2, 3] 200 [1, 3]) ⟨100, 3⟩ ⟨200, 2⟩ = .ok true ∧
    op_lt (place_two 100 [] 200 [1]) ⟨100, 0⟩ ⟨200, 1⟩ = .ok true := by
  refine ⟨?_, by decide, by decide, by decide⟩
  obtain ⟨xs, hxl, hxs⟩ := exists_list_of_valid mem x hx
  obtain ⟨ys, hyl, hys⟩ := exists_list_of_valid mem y hy
  refine ⟨_, op_lt_eq mem x y xs ys hxl hxs hyl hys, ?_⟩
  have h := seq_lt_iff_lexLess mem xs ys x.data_ y.data_ hxs hys
  rw [hxl, hyl] at h
  exact h

theorem valid_of_size_le {T : Type} (mem : Mem T) (v : ArrayRef) (n : Nat)
    (hn : v.size_ ≤ n) (h : ∀ k, k < n → (mem (v.data_ + k)).isSome = true) :
    v.Valid mem := by
  intro k hk
  exact Option.isSome_iff_exists.mp (h k (lt_of_lt_of_le hk hn))

/-- C5 at the views of `[1, 2, 3]` and `[1, 3]`, stored at `100` and `200`. -/
theorem C5_less_is_lexicographic_witness :
    (∃ b, op_lt (place_two 100 [1, 2, 3] 200 [1, 3]) ⟨100, 3⟩ ⟨200, 2⟩ = .ok b ∧
      (b = true ↔ LexLess (place_two 100 [1, 2, 3] 200 [1, 3]) ⟨100, 3⟩ ⟨200, 2⟩)) ∧
    op_lt (place_two 100 [1, 2] 200 [1, 2, 3]) ⟨100, 2⟩ ⟨200, 3⟩ = .ok true ∧
    op_lt (place_two 100 [1, 2, 3] 200 [1, 3]) ⟨100, 3⟩ ⟨200, 2⟩ = .ok true ∧
    op_lt (place_two 100 [] 200 [1]) ⟨100, 0⟩ ⟨200, 1⟩ = .ok true :=
  C5_less_is_lexicographic (place_two 100 [1, 2, 3] 200 [1, 3]) ⟨100, 3⟩ ⟨200, 2⟩
    (valid_of_size_le _ _ 3 (by decide) (by decide))
    (valid_of_size_le _ _ 2 (by decide) (by decide))

/-! ## Order laws -/

theorem seq_lt_cons {T : Type} [LT T] [DecidableRel (fun a b : T => a < b)]
    (a b : T) (xs ys : List T) :
    seq_lt (a :: xs) (b :: ys) = true ↔ a < b ∨ (¬ a < b ∧ ¬ b < a ∧ seq_lt xs ys = true) := by
  by_cases h1 : a < b
  · simp [seq_lt, h1]
  · by_cases h2 : b < a
    · simp [seq_lt, h1, h2]
    · simp [seq_lt, h1, h2]

theorem seq_lt_irrefl {T : Type} [LT T] [DecidableRel (fun a b : T => a < b)]
    (hirr : ∀ a : T, ¬ a < a) : ∀ xs : List T, seq_lt xs xs = false := by
  intro xs
  induction xs with
  | nil => rfl
  | cons a xs ih => simp [seq_lt, hirr a, ih]

theorem seq_lt_trans {T : Type} [LT T] [DecidableRel (fun a b : T => a < b)]
    (htrans : ∀ a b c : T, a < b → b < c → a < c)
    (htri : ∀ a b : T, a < b ∨ a = b ∨ b < a) :
    ∀ xs ys zs : List T, seq_lt xs ys = true → seq_lt ys zs = true →
      seq_lt xs zs = true := by
  intro xs
  induction xs with
  | nil =>
    intro ys zs h1 h2
    cases ys with
    | nil => simp [seq_lt] at h1
    | cons b ys =>
      cases zs with
      | nil => simp [seq_lt] at h2
      | cons c zs => rfl
  | cons a xs ih =>
    intro ys zs h1 h2
    cases ys with
    | nil => simp [seq_lt] at h1
    | cons b ys =>
      cases zs with
      | nil => simp [seq_lt] at h2
      | cons c zs =>
        rw [seq_lt_cons] at h1 h2 ⊢
        rcases h1 with hab | ⟨nab, nba, hxy⟩
        · rcases h2 with hbc | ⟨nbc, ncb, _⟩
          · exact Or.inl (htrans a b c hab hbc)
          · rcases htri b c with h | h | h
            · exact absurd h nbc
            · subst h; exact Or.inl hab
            · exact absurd h ncb
        · rcases htri a b with h | h | h
          · exact absurd h nab
          · subst h
            rcases h2 with hbc | ⟨nbc, ncb, hyz⟩
            · exact Or.inl hbc
            · exact Or.inr ⟨nbc, ncb, ih ys zs hxy hyz⟩
          · exact absurd h nba

theorem seq_lt_total {T : Type} [LT T] [DecidableRel (fun a b : T => a < b)]
    (htri : ∀ a b : T, a < b ∨ a = b ∨ b < a) :
    ∀ xs ys : List T, seq_lt xs ys = true ∨ xs = ys ∨ seq_lt ys xs = true := by
  intro xs
  induction xs with
  | nil =>
    intro ys
    cases ys with
    | nil => exact Or.inr (Or.inl rfl)
    | cons b ys => exact Or.inl rfl
  | cons a xs ih =>
    intro ys
    cases ys with
    | nil => exact Or.inr (Or.inr rfl)
    | cons b ys =>
      rw [seq_lt_cons, seq_lt_cons]
      by_cases h1 : a < b
      · exact Or.inl (Or.inl h1)
      · by_cases h2 : b < a
        · exact Or.inr (Or.inr (Or.inl h2))
        · rcases htri a b with h | h | h
          · exact absurd h h1
          · subst h
            rcases ih ys with g | g | g
            · exact Or.inl (Or.inr ⟨h1, h1, g⟩)
            · subst g; exact Or.inr (Or.inl rfl)
            · exact Or.inr (Or.inr (Or.inr ⟨h1, h1, g⟩))
          · exact absurd h h2

theorem seq_eq_iff_eq {T : Type} [BEq T] (hbeq : ∀ a b : T, (a == b) = true ↔ a = b) :
    ∀ xs ys : List T, seq_eq xs ys = true ↔ xs = ys := by
  intro xs
  induction xs with
  | nil =>
    intro ys
    cases ys with
    | nil => simp [seq_eq]
    | cons b ys => simp [seq_eq]
  | cons a xs ih =>
    intro ys
    cases ys with
    | nil => simp [seq_eq]
    | cons b ys =>
      by_cases hab : (a == b) = true
      · have e : a = b := (hbeq a b).mp hab
        simp only [seq_eq, hab, Bool.not_true, Bool.false_eq_true, if_false, ih ys]
        subst e
        simp
      · have e : ¬ a = b := fun h => hab ((hbeq a b).mpr h)
        simp [seq_eq, hab, e]

theorem seq_eq_length {T : Type} [BEq T] :
    ∀ xs ys : List T, seq_eq xs ys = true → xs.length = ys.length := by
  intro xs
  induction xs with
  | nil =>
    intro ys h
    cases ys with
    | nil => rfl
    | cons b ys => simp [seq_eq] at h
  | cons a xs ih =>
    intro ys h
    cases ys with
    | nil => simp [seq_eq] at h
    | cons b ys =>
      by_cases hab : (a == b) = true
      · simp only [seq_eq, hab, Bool.not_true, Bool.false_eq_true, if_false] at h
        simp [ih ys h]
      · simp [seq_eq, hab] at h

/-- C6. When `<` on the elements is irreflexive, transitive and trichotomous
and `==` on the elements is equality, then on views whose elements are live
`operator<` is irreflexive and transitive, and for all views `A`, `B` exactly
one of `A < B`, `A == B`, `B < A` is true (each of the three returns). -/
theorem C6_strict_total_order {T : Type} [LT T] [DecidableRel (fun a b : T => a < b)]
    [BEq T] (hirr : ∀ a : T, ¬ a < a) (htrans : ∀ a b c : T, a < b → b < c → a < c)
    (htri : ∀ a b : T, a < b ∨ a = b ∨ b < a)
    (hbeq : ∀ a b : T, (a == b) = true ↔ a = b)
    (mem : Mem T) (A B C : ArrayRef)
    (hA : A.Valid mem) (hB : B.Valid mem) (hC : C.Valid mem) :
    op_lt mem A A = .ok false ∧
    (op_lt mem A B = .ok true → op_lt mem B C = .ok true → op_lt mem A C = .ok true) ∧
    ((op_lt mem A B = .ok true ∧ op_eq mem A B = .ok false ∧ op_lt mem B A = .ok false) ∨
     (op_lt mem A B = .ok false ∧ op_eq mem A B = .ok true ∧ op_lt mem B A = .ok false) ∨
     (op_lt mem A B = .ok false ∧ op_eq mem A B = .ok false ∧ op_lt mem B A = .ok true)) := by
  obtain ⟨xs, hxl, hxs⟩ := exists_list_of_valid mem A hA
  obtain ⟨ys, hyl, hys⟩ := exists_list_of_valid mem B hB
  obtain ⟨zs, hzl, hzs⟩ := exists_list_of_valid mem C hC
  rw [op_lt_eq mem A A xs xs hxl hxs hxl hxs, op_lt_eq mem A B xs ys hxl hxs hyl hys,
    op_lt_eq mem B C ys zs hyl hys hzl hzs, op_lt_eq mem A C xs zs hxl hxs hzl hzs,
    op_lt_eq mem B A ys xs hyl hys hxl hxs, op_eq_eq mem A B xs ys hxl hxs hyl hys]
  have heq : (decide (xs.length = ys.length) && seq_eq xs ys) = seq_eq xs ys := by
    cases h : seq_eq xs ys
    · simp
    · simp [seq_eq_length xs ys h]
  rw [heq]
  refine ⟨by rw [seq_lt_irrefl hirr], ?_, ?_⟩
  · intro h1 h2
    have h1b : seq_lt xs ys = true := by simpa using h1
    have h2b : seq_lt ys zs = true := by simpa using h2
    rw [seq_lt_trans htrans htri xs ys zs h1b h2b]
  · have asym : ∀ us vs : List T, seq_lt us vs = true → seq_lt vs us = false := by
      intro us vs h
      cases h2 : seq_lt vs us
      · rfl
      · have := seq_lt_trans htrans htri us vs us h h2
        rw [seq_lt_irrefl hirr] at this
        cases this
    have ne_of_lt : ∀ us vs : List T, seq_lt us vs = true → seq_eq us vs = false := by
      intro us vs h
      cases h2 : seq_eq us vs
      · rfl
      · have e := (seq_eq_iff_eq hbeq us vs).mp h2
        subst e
        rw [seq_lt_irrefl hirr] at h
        cases h
    rcases seq_lt_total htri xs ys with h | h | h
    · exact Or.inl ⟨by rw [h], by rw [ne_of_lt xs ys h], by rw [asym xs ys h]⟩
    · subst h
      refine Or.inr (Or.inl ⟨by rw [seq_lt_irrefl hirr], ?_, by rw [seq_lt_irrefl hirr]⟩)
      rw [(seq_eq_iff_eq hbeq xs xs).mpr rfl]
    · refine Or.inr (Or.inr ⟨by rw [asym ys xs h], ?_, by rw [h]⟩)
      cases h2 : seq_eq xs ys
      · rfl
      · have e := (seq_eq_iff_eq hbeq xs ys).mp h2
        subst e
        rw [seq_lt_irrefl hirr] at h
        cases h

/-- C6 at the views of `[1, 2]`, `[1, 2, 3]` and `[1, 3]`, stored one after
the other from address `100`. -/
theorem C6_strict_total_order_witness :
    op_lt (place 100 [1, 2, 1, 2, 3, 1, 3]) ⟨100, 2⟩ ⟨100, 2⟩ = .ok false ∧
    (op_lt (place 100 [1, 2, 1, 2, 3, 1, 3]) ⟨100, 2⟩ ⟨102, 3⟩ = .ok true →
      op_lt (place 100 [1, 2, 1, 2, 3, 1, 3]) ⟨102, 3⟩ ⟨105, 2⟩ = .ok true →
      op_lt (place 100 [1, 2, 1, 2, 3, 1, 3]) ⟨100, 2⟩ ⟨105, 2⟩ = .ok true) ∧
    ((op_lt (place 100 [1, 2, 1, 2, 3, 1, 3]) ⟨100, 2⟩ ⟨102, 3⟩ = .ok true ∧
      op_eq (place 100 [1, 2, 1, 2, 3, 1, 3]) ⟨100, 2⟩ ⟨102, 3⟩ = .ok false ∧
      op_lt (place 100 [1, 2, 1, 2, 3, 1, 3]) ⟨102, 3⟩ ⟨100, 2⟩ = .ok false) ∨
     (op_lt (place 100 [1, 2, 1, 2, 3, 1, 3]) ⟨100, 2⟩ ⟨102, 3⟩ = .ok false ∧
      op_eq (place 100 [1, 2, 1, 2, 3, 1, 3]) ⟨100, 2⟩ ⟨102, 3⟩ = .ok true ∧
      op_lt (place 100 [1, 2, 1, 2, 3, 1, 3]) ⟨102, 3⟩ ⟨100, 2⟩ = .ok false) ∨
     (op_lt (place 100 [1, 2, 1, 2, 3, 1, 3]) ⟨100, 2⟩ ⟨102, 3⟩ = .ok false ∧
      op_eq (place 100 [1, 2, 1, 2, 3, 1, 3]) ⟨100, 2⟩ ⟨102, 3⟩ = .ok false ∧
      op_lt (place 100 [1, 2, 1, 2, 3, 1, 3]) ⟨102, 3⟩ ⟨100, 2⟩ = .ok true)) :=
  C6_strict_total_order (fun a => Nat.lt_irrefl a) (fun _ _ _ h1 h2 => Nat.lt_trans h1 h2)
    (fun a b => Nat.lt_trichotomy a b) (fun a b => by simp)
    (place 100 [1, 2, 1, 2, 3, 1, 3]) ⟨100, 2⟩ ⟨102, 3⟩ ⟨105, 2⟩
    (valid_of_size_le _ _ 2 (by decide) (by decide))
    (valid_of_size_le _ _ 3 (by decide) (by decide))
    (valid_of_size_le _ _ 2 (by decide) (by decide))

/-! ## Assertions of the constructors -/

/-- C7. With assertions enabled, the pointer constructor given the inverted
range `i = 3`, `j = 1` returns a view (of size `2 ^ 64 - 2`) instead of failing
an assertion: `assert(size_ >= 0)` tests an unsigned value and cannot fail. -/
theorem C7_inverted_range_passes_assert :
    ArrayRef.ctor_ptr 64 false 100 3 1 = .ok ⟨103, 2 ^ 64 - 2⟩ ∧ ¬ (1 ≥ 3) := by
  decide

/-- C9 fails as stated: without assertions, the inverted range `i = 2 ^ 64 - 1`,
`j = 0` gives a view of size `1`, so the wrapped length is not larger than
every storage for every inverted range. -/
theorem C9_small_wrapped_length :
    ArrayRef.ctor_ptr 64 true 100 (2 ^ 64 - 1) 0 = .ok ⟨100 + (2 ^ 64 - 1), 1⟩ ∧
    ¬ (∀ i j N : Nat, j < i → i < 2 ^ 64 → 2 * N < 2 ^ 64 →
        ∀ v : ArrayRef, ArrayRef.ctor_ptr 64 true 100 i j = .ok v → N < v.size) := by
  refine ⟨by decide, fun h => ?_⟩
  have := h (2 ^ 64 - 1) 0 1 (by decide) (by decide) (by decide)
    ⟨100 + (2 ^ 64 - 1), 1⟩ (by decide)
  exact absurd this (by decide)

/-- C9, amended. Without assertions, the pointer constructor given an inverted
range `j < i` returns a view of size `2 ^ w - (i - j)`, and this size exceeds
the element count `N` of every storage that contains position `i` (`i <= N`)
and fits in half the address space (`2 * N < 2 ^ w`). -/
theorem C9_wrapped_length {w : Nat} (data i j : Nat) (hji : j < i) (hi : i < 2 ^ w) :
    ∃ v : ArrayRef, ArrayRef.ctor_ptr w true data i j = .ok v ∧
      v.size = 2 ^ w - (i - j) ∧
      ∀ N : Nat, i ≤ N → 2 * N < 2 ^ w → N < v.size := by
  refine ⟨_, ctor_ptr_ok w true data i j, size_sub_of_gt w i j hji hi, ?_⟩
  intro N hN h2
  show N < size_sub w j i
  rw [size_sub_of_gt w i j hji hi]
  omega

/-- C9, amended, at `w = 64`, `i = 3`, `j = 1`. -/
theorem C9_wrapped_length_witness :
    ∃ v : ArrayRef, ArrayRef.ctor_ptr 64 true 100 3 1 = .ok v ∧
      v.size = 2 ^ 64 - (3 - 1) ∧
      ∀ N : Nat, 3 ≤ N → 2 * N < 2 ^ 64 → N < v.size :=
  C9_wrapped_length 100 3 1 (by decide) (by decide)

/-! ## Swap -/

/-- C10. After the member `x.swap(y)` and after the free `swap(x, y)`, `x` holds
the pointer and the size that `y` had, `y` holds those that `x` had, and the
memory holds the same element at every address as before. -/
theorem C10_swap_exchanges {T : Type} (mem : Mem T) (x y : ArrayRef) :
    ((x.swap mem y).2.1.data_ = y.data_ ∧ (x.swap mem y).2.1.size_ = y.size_ ∧
      (x.swap mem y).2.2.data_ = x.data_ ∧ (x.swap mem y).2.2.size_ = x.size_ ∧
      ∀ a : Ptr, (x.swap mem y).1 a = mem a) ∧
    ((swap mem x y).2.1.data_ = y.data_ ∧ (swap mem x y).2.1.size_ = y.size_ ∧
      (swap mem x y).2.2.data_ = x.data_ ∧ (swap mem x y).2.2.size_ = x.size_ ∧
      ∀ a : Ptr, (swap mem x y).1 a = mem a) :=
  ⟨⟨rfl, rfl, rfl, rfl, fun _ => rfl⟩, ⟨rfl, rfl, rfl, rfl, fun _ => rfl⟩⟩

/-! ## Iteration -/

theorem holdsAt_window {T : Type} (mem : Mem T) (s : List T) (p i n : Nat)
    (hs : HoldsAt mem p s) : HoldsAt mem (p + i) ((s.drop i).take n) := by
  intro k hk
  simp only [List.length_take, List.length_drop, lt_min_iff] at hk
  rw [Nat.add_assoc, hs (i + k) (by omega), List.getElem?_take_of_lt hk.1, List.getElem?_drop]

theorem holdsAt_append_singleton {T : Type} (mem : Mem T) (p : Ptr) (xs : List T) (a : T)
    (h : HoldsAt mem p (xs ++ [a])) : HoldsAt mem p xs ∧ mem (p + xs.length) = some a := by
  constructor
  · intro k hk
    rw [h k (by simp; omega), List.getElem?_append_left hk]
  · rw [h xs.length (by simp)]
    simp

theorem visit_loop_eq {T : Type} (mem : Mem T) :
    ∀ (xs : List T) (p : Ptr), HoldsAt mem p xs → visit_loop mem xs.length p = .ok xs := by
  intro xs
  induction xs with
  | nil => intro p _; rfl
  | cons a xs ih =>
    intro p hp
    obtain ⟨ha, hxs⟩ := (holdsAt_cons mem p a xs).mp hp
    simp only [List.length_cons, visit_loop, deref, ha, ih (p + 1) hxs]

theorem reverse_visit_loop_eq {T : Type} (mem : Mem T) (p : Nat) :
    ∀ xs : List T, HoldsAt mem p xs →
      reverse_visit_loop mem xs.length ⟨p + xs.length⟩ = .ok xs.reverse := by
  intro xs
  induction xs using List.reverseRecOn with
  | nil => intro _; rfl
  | append_singleton xs a ih =>
    intro h
    obtain ⟨hxs, ha⟩ := holdsAt_append_singleton mem p xs a h
    have hlen : (xs ++ [a]).length = xs.length + 1 := by simp
    rw [hlen]
    have hcur : p + (xs.length + 1) - 1 = p + xs.length := by omega
    simp only [reverse_visit_loop, reverse_iterator.deref, reverse_iterator.next, deref,
      hcur, ha, ih hxs, List.reverse_append, List.reverse_cons, List.reverse_nil,
      List.nil_append, List.singleton_append]

theorem visit_view {T : Type} (mem : Mem T) (v : ArrayRef) (xs : List T)
    (hl : xs.length = v.size_) (hxs : HoldsAt mem v.data_ xs) :
    visit mem v.begin v.end = .ok xs ∧ visit mem v.cbegin v.cend = .ok xs ∧
    reverse_visit mem v.rbegin v.rend = .ok xs.reverse ∧
    reverse_visit mem v.crbegin v.crend = .ok xs.reverse := by
  have hf : visit_loop mem (v.data_ + v.size_ - v.data_) v.data_ = .ok xs := by
    rw [Nat.add_sub_cancel_left, ← hl]
    exact visit_loop_eq mem xs _ hxs
  have hr : reverse_visit_loop mem (v.data_ + v.size_ - v.data_) ⟨v.data_ + v.size_⟩
      = .ok xs.reverse := by
    rw [Nat.add_sub_cancel_left, ← hl]
    exact reverse_visit_loop_eq mem _ xs hxs
  exact ⟨hf, hf, hr, hr⟩

/-- C11. For a storage `s` of `N` elements and a split point `k <= N`, the views
over `[0, k)` and over `[k, N)` (built by any constructor) are each iterated
from `begin()` to `end()` without fault, and the elements of the first followed
by the elements of the second are exactly `s`. -/
theorem C11_split_concatenation {T : Type} (w : Nat) (ndebug : Bool) (mem : Mem T)
    (s : List T) (p k : Nat) (hk : k ≤ s.length) (hN : s.length < 2 ^ w)
    (hs : HoldsAt mem p s) :
    ∃ (lo hi : ArrayRef) (l1 l2 : List T),
      (ArrayRef.ctor_ptr w ndebug p 0 k = .ok lo ∧
        ArrayRef.ctor_array w ndebug ⟨p, s.length⟩ 0 k = .ok lo ∧
        ArrayRef.ctor_vector w ndebug ⟨p, s.length⟩ 0 k = .ok lo) ∧
      (ArrayRef.ctor_ptr w ndebug p k s.length = .ok hi ∧
        ArrayRef.ctor_array w ndebug ⟨p, s.length⟩ k s.length = .ok hi ∧
        ArrayRef.ctor_vector w ndebug ⟨p, s.length⟩ k s.length = .ok hi) ∧
      visit mem lo.begin lo.end = .ok l1 ∧ visit mem hi.begin hi.end = .ok l2 ∧
      l1.length = lo.size ∧ l2.length = hi.size ∧ l1 ++ l2 = s := by
  have h1 : size_sub w k 0 = k - 0 := size_sub_of_le w 0 k (Nat.zero_le k) (by omega)
  have h2 : size_sub w s.length k = s.length - k := size_sub_of_le w k s.length hk hN
  have hl1 : ((s.drop 0).take (k - 0)).length = k - 0 := by simp; omega
  have hl2 : ((s.drop k).take (s.length - k)).length = s.length - k := by simp
  have w1 := holdsAt_window mem s p 0 (k - 0) hs
  have w2 := holdsAt_window mem s p k (s.length - k) hs
  refine ⟨{ data_ := p + 0, size_ := k - 0 }, { data_ := p + k, size_ := s.length - k },
    (s.drop 0).take (k - 0), (s.drop k).take (s.length - k),
    ⟨?_, ?_, ?_⟩, ⟨?_, ?_, ?_⟩, ?_, ?_, hl1, hl2, ?_⟩
  · rw [ctor_ptr_ok, h1]
  · rw [ctor_array_ok _ _ _ _ _ (by rw [h1]; show k - 0 ≤ s.length; omega), h1]
  · rw [ctor_vector_ok _ _ _ _ _ (by rw [h1]; show k - 0 ≤ s.length; omega), h1]
  · rw [ctor_ptr_ok, h2]
  · rw [ctor_array_ok _ _ _ _ _ (by rw [h2]; show s.length - k ≤ s.length; omega), h2]
  · rw [ctor_vector_ok _ _ _ _ _ (by rw [h2]; show s.length - k ≤ s.length; omega), h2]
  · exact (visit_view mem ⟨p + 0, k - 0⟩ _ hl1 w1).1
  · exact (visit_view mem ⟨p + k, s.length - k⟩ _ hl2 w2).1
  · have e : (s.drop k).take (s.length - k) = s.drop k :=
      List.take_of_length_le (by simp)
    rw [e, List.drop_zero, Nat.sub_zero, List.take_append_drop]

/-- C11 at the storage `[10, 20, 30, 40, 50]` and the split point `2`. -/
theorem C11_split_concatenation_witness :
    ∃ (lo hi : ArrayRef) (l1 l2 : List Nat),
      (ArrayRef.ctor_ptr 64 false 100 0 2 = .ok lo ∧
        ArrayRef.ctor_array 64 false ⟨100, [10, 20, 30, 40, 50].length⟩ 0 2 = .ok lo ∧
        ArrayRef.ctor_vector 64 false ⟨100, [10, 20, 30, 40, 50].length⟩ 0 2 = .ok lo) ∧
      (ArrayRef.ctor_ptr 64 false 100 2 [10, 20, 30, 40, 50].length = .ok hi ∧
        ArrayRef.ctor_array 64 false ⟨100, [10, 20, 30, 40, 50].length⟩ 2
          [10, 20, 30, 40, 50].length = .ok hi ∧
        ArrayRef.ctor_vector 64 false ⟨100, [10, 20, 30, 40, 50].length⟩ 2
          [10, 20, 30, 40, 50].length = .ok hi) ∧
      visit (place 100 [10, 20, 30, 40, 50]) lo.begin lo.end = .ok l1 ∧
      visit (place 100 [10, 20, 30, 40, 50]) hi.begin hi.end = .ok l2 ∧
      l1.length = lo.size ∧ l2.length = hi.size ∧ l1 ++ l2 = [10, 20, 30, 40, 50] :=
  C11_split_concatenation 64 false (place 100 [10, 20, 30, 40, 50]) [10, 20, 30, 40, 50]
    100 2 (by decide) (by decide) (holdsAt_place 100 _)

/-- C12. For a view `v` whose elements are live, iteration from `begin()` to
`end()` and from `cbegin()` to `cend()` visits exactly `size()` elements, the
elements `0, 1, ..., size() - 1` of `v` in that order, and iteration from
`rbegin()` to `rend()` and from `crbegin()` to `crend()` visits the same
elements in the reversed order. -/
theorem C12_iteration_order {T : Type} (mem : Mem T) (v : ArrayRef) (hv : v.Valid mem) :
    ∃ l : List T, l.length = v.size ∧
      (∀ k, k < v.size → ∃ e, l[k]? = some e ∧ v.at mem k = .ok e) ∧
      visit mem v.begin v.end = .ok l ∧ visit mem v.cbegin v.cend = .ok l ∧
      reverse_visit mem v.rbegin v.rend = .ok l.reverse ∧
      reverse_visit mem v.crbegin v.crend = .ok l.reverse := by
  obtain ⟨xs, hl, hxs⟩ := exists_list_of_valid mem v hv
  obtain ⟨h1, h2, h3, h4⟩ := visit_view mem v xs hl hxs
  refine ⟨xs, hl, ?_, h1, h2, h3, h4⟩
  intro k hk
  have hk2 : k < xs.length := by rw [hl]; exact hk
  exact ⟨xs[k], List.getElem?_eq_getElem hk2,
    at_of_lt mem v k _ hk (holdsAt_elem mem _ xs hxs k hk2)⟩

/-- C12 at the view over `[1, 4)` of `[10, 20, 30, 40, 50]`. -/
theorem C12_iteration_order_witness :
    ∃ l : List Nat, l.length = (ArrayRef.mk 101 3).size ∧
      (∀ k, k < (ArrayRef.mk 101 3).size → ∃ e, l[k]? = some e ∧
        (ArrayRef.mk 101 3).at (place 100 [10, 20, 30, 40, 50]) k = .ok e) ∧
      visit (place 100 [10, 20, 30, 40, 50]) (ArrayRef.mk 101 3).begin
        (ArrayRef.mk 101 3).end = .ok l ∧
      visit (place 100 [10, 20, 30, 40, 50]) (ArrayRef.mk 101 3).cbegin
        (ArrayRef.mk 101 3).cend = .ok l ∧
      reverse_visit (place 100 [10, 20, 30, 40, 50]) (ArrayRef.mk 101 3).rbegin
        (ArrayRef.mk 101 3).rend = .ok l.reverse ∧
      reverse_visit (place 100 [10, 20, 30, 40, 50]) (ArrayRef.mk 101 3).crbegin
        (ArrayRef.mk 101 3).crend = .ok l.reverse :=
  C12_iteration_order (place 100 [10, 20, 30, 40, 50]) ⟨101, 3⟩
    (valid_of_size_le _ _ 3 (by decide) (by decide))

/-! ## `front`, `back` and unchecked access -/

/-- C13. For the view over `[i, j)` of a storage `s` with `i < j <= N` (built by
any constructor), `front()` returns `s[i]`, which is also `at(0)`, and `back()`
returns `s[j - 1]`, which is also `at(size() - 1)`; for `[10, 20, 30, 40, 50]`
and `[1, 4)` the size is `3`, the front `20`, the back `40`, and `at(5)` throws. -/
theorem C13_front_back {T : Type} (w : Nat) (ndebug : Bool) (mem : Mem T)
    (s : List T) (p i j : Nat) (hij : i < j) (hj : j ≤ s.length)
    (hN : s.length < 2 ^ w) (hs : HoldsAt mem p s) :
    (∃ (v : ArrayRef) (e0 e1 : T),
      (ArrayRef.ctor_ptr w ndebug p i j = .ok v ∧
        ArrayRef.ctor_array w ndebug ⟨p, s.length⟩ i j = .ok v ∧
        ArrayRef.ctor_vector w ndebug ⟨p, s.length⟩ i j = .ok v) ∧
      s[i]? = some e0 ∧ v.front mem = .ok e0 ∧ v.at mem 0 = .ok e0 ∧
      s[j - 1]? = some e1 ∧ v.back w mem = .ok e1 ∧ v.at mem (v.size - 1) = .ok e1) ∧
    (ArrayRef.ctor_ptr 64 false 100 1 4 = .ok ⟨101, 3⟩ ∧
      (ArrayRef.mk 101 3).size = 3 ∧
      (ArrayRef.mk 101 3).front (place 100 [10, 20, 30, 40, 50]) = .ok 20 ∧
      (ArrayRef.mk 101 3).back 64 (place 100 [10, 20, 30, 40, 50]) = .ok 40 ∧
      (ArrayRef.mk 101 3).at (place 100 [10, 20, 30, 40, 50]) 5 = .error .out_of_range) := by
  refine ⟨?_, by decide, by decide, by decide, by decide, by decide⟩
  have hsz : size_sub w j i = j - i := size_sub_of_le w i j (by omega) (by omega)
  have hle : size_sub w j i ≤ s.length := by omega
  have hb : size_sub w (j - i) 1 = j - i - 1 := size_sub_of_le w 1 (j - i) (by omega) (by omega)
  have hi : i < s.length := by omega
  have hj1 : j - 1 < s.length := by omega
  have m0 : mem (p + i + 0) = some s[i] := by
    rw [Nat.add_zero]; exact holdsAt_elem mem p s hs i hi
  have m1 : mem (p + i + (j - i - 1)) = some s[j - 1] := by
    have e : p + i + (j - i - 1) = p + (j - 1) := by omega
    rw [e]; exact holdsAt_elem mem p s hs (j - 1) hj1
  refine ⟨{ data_ := p + i, size_ := j - i }, s[i], s[j - 1], ⟨?_, ?_, ?_⟩,
    List.getElem?_eq_getElem hi, ?_, ?_, List.getElem?_eq_getElem hj1, ?_, ?_⟩
  · rw [ctor_ptr_ok, hsz]
  · rw [ctor_array_ok _ _ _ _ _ hle, hsz]
  · rw [ctor_vector_ok _ _ _ _ _ hle, hsz]
  · simp only [ArrayRef.front, deref, m0]
  · exact at_of_lt mem _ 0 _ (show 0 < j - i by omega) m0
  · simp only [ArrayRef.back, deref, hb, m1]
  · exact at_of_lt mem _ _ _ (show j - i - 1 < j - i by omega) m1

/-- C13 at the storage `[10, 20, 30, 40, 50]` and the range `[1, 4)`. -/
theorem C13_front_back_witness :
    (∃ (v : ArrayRef) (e0 e1 : Nat),
      (ArrayRef.ctor_ptr 64 false 100 1 4 = .ok v ∧
        ArrayRef.ctor_array 64 false ⟨100, [10, 20, 30, 40, 50].length⟩ 1 4 = .ok v ∧
        ArrayRef.ctor_vector 64 false ⟨100, [10, 20, 30, 40, 50].length⟩ 1 4 = .ok v) ∧
      [10, 20, 30, 40, 50][1]? = some e0 ∧
      v.front (place 100 [10, 20, 30, 40, 50]) = .ok e0 ∧
      v.at (place 100 [10, 20, 30, 40, 50]) 0 = .ok e0 ∧
      [10, 20, 30, 40, 50][4 - 1]? = some e1 ∧
      v.back 64 (place 100 [10, 20, 30, 40, 50]) = .ok e1 ∧
      v.at (place 100 [10, 20, 30, 40, 50]) (v.size - 1) = .ok e1) ∧
    (ArrayRef.ctor_ptr 64 false 100 1 4 = .ok ⟨101, 3⟩ ∧
      (ArrayRef.mk 101 3).size = 3 ∧
      (ArrayRef.mk 101 3).front (place 100 [10, 20, 30, 40, 50]) = .ok 20 ∧
      (ArrayRef.mk 101 3).back 64 (place 100 [10, 20, 30, 40, 50]) = .ok 40 ∧
      (ArrayRef.mk 101 3).at (place 100 [10, 20, 30, 40, 50]) 5 = .error .out_of_range) :=
  C13_front_back 64 false (place 100 [10, 20, 30, 40, 50]) [10, 20, 30, 40, 50]
    100 1 4 (by decide) (by decide) (by decide) (holdsAt_place 100 _)

/-- C14. For a view `v` whose elements are live and an index `n`, the assertion
of `v[n]` holds (no assertion failure in a build with assertions) exactly when
`n < size()`, which is exactly when `v.at(n)` returns an element; and for every
such `n`, with or without assertions, `v[n]` returns what `v.at(n)` returns. -/
theorem C14_index_agrees_with_at {T : Type} (mem : Mem T) (v : ArrayRef) (n : Nat)
    (hv : v.Valid mem) :
    (v.index false mem n ≠ .error .assertion ↔ n < v.size) ∧
    ((∃ e, v.at mem n = .ok e) ↔ n < v.size) ∧
    (n < v.size → ∃ e, v.at mem n = .ok e ∧ v.index false mem n = .ok e ∧
      v.index true mem n = .ok e) := by
  unfold ArrayRef.size
  have key : n < v.size_ → ∃ e, v.at mem n = .ok e ∧ v.index false mem n = .ok e ∧
      v.index true mem n = .ok e := by
    intro h
    obtain ⟨e, he⟩ := hv n h
    refine ⟨e, at_of_lt mem v n e h he, ?_, ?_⟩
    · simp [ArrayRef.index, cassert, h, deref, he]
    · simp [ArrayRef.index, cassert, deref, he]
  refine ⟨⟨?_, ?_⟩, ⟨?_, ?_⟩, key⟩
  · intro h
    by_contra hn
    exact h (by simp [ArrayRef.index, cassert, hn])
  · intro h
    obtain ⟨e, _, h2, _⟩ := key h
    rw [h2]
    intro hc; cases hc
  · rintro ⟨e, he⟩
    by_contra hn
    have hge : n ≥ v.size_ := Nat.not_lt.mp hn
    simp [ArrayRef.at, hge] at he
  · intro h
    obtain ⟨e, h1, _⟩ := key h
    exact ⟨e, h1⟩

/-- C14 at the view over `[1, 4)` of `[10, 20, 30, 40, 50]` and the index `2`. -/
theorem C14_index_agrees_with_at_witness :
    ((ArrayRef.mk 101 3).index false (place 100 [10, 20, 30, 40, 50]) 2 ≠ .error .assertion
      ↔ 2 < (ArrayRef.mk 101 3).size) ∧
    ((∃ e, (ArrayRef.mk 101 3).at (place 100 [10, 20, 30, 40, 50]) 2 = .ok e)
      ↔ 2 < (ArrayRef.mk 101 3).size) ∧
    (2 < (ArrayRef.mk 101 3).size →
      ∃ e, (ArrayRef.mk 101 3).at (place 100 [10, 20, 30, 40, 50]) 2 = .ok e ∧
        (ArrayRef.mk 101 3).index false (place 100 [10, 20, 30, 40, 50]) 2 = .ok e ∧
        (ArrayRef.mk 101 3).index true (place 100 [10, 20, 30, 40, 50]) 2 = .ok e) :=
  C14_index_agrees_with_at (place 100 [10, 20, 30, 40, 50]) ⟨101, 3⟩ 2
    (valid_of_size_le _ _ 3 (by decide) (by decide))

/-! ## The empty view -/

/-- C16. The default-constructed view has a null `data()`, `size() == 0`,
`empty()` true, and `at(n)` throws `out_of_range` for every `n`; and for every
view, `empty()` is true exactly when `size() == 0`. -/
theorem C16_default_is_empty {T : Type} (mem : Mem T) (n : Nat) (v : ArrayRef) :
    ArrayRef.ctor_default.data = nullptr ∧ ArrayRef.ctor_default.size = 0 ∧
    ArrayRef.ctor_default.empty = true ∧
    ArrayRef.ctor_default.at mem n = .error .out_of_range ∧
    (v.empty = true ↔ v.size = 0) := by
  refine ⟨rfl, rfl, rfl, ?_, ?_⟩
  · simp [ArrayRef.at, ArrayRef.ctor_default]
  · simp [ArrayRef.empty, ArrayRef.size]

/-! ## Derived comparisons -/

theorem seq_compare_cases {T : Type} [LT T] [DecidableRel (fun a b : T => a < b)] [BEq T]
    (hirr : ∀ a : T, ¬ a < a) (htrans : ∀ a b c : T, a < b → b < c → a < c)
    (htri : ∀ a b : T, a < b ∨ a = b ∨ b < a)
    (hbeq : ∀ a b : T, (a == b) = true ↔ a = b) (xs ys : List T) :
    (seq_lt xs ys = true ∧ seq_eq xs ys = false ∧ seq_lt ys xs = false) ∨
    (seq_lt xs ys = false ∧ seq_eq xs ys = true ∧ seq_lt ys xs = false) ∨
    (seq_lt xs ys = false ∧ seq_eq xs ys = false ∧ seq_lt ys xs = true) := by
  have asym : ∀ us vs : List T, seq_lt us vs = true → seq_lt vs us = false := by
    intro us vs h
    cases h2 : seq_lt vs us
    · rfl
    · have := seq_lt_trans htrans htri us vs us h h2
      rw [seq_lt_irrefl hirr] at this
      cases this
  have ne_of_lt : ∀ us vs : List T, seq_lt us vs = true → seq_eq us vs = false := by
    intro us vs h
    cases h2 : seq_eq us vs
    · rfl
    · have e := (seq_eq_iff_eq hbeq us vs).mp h2
      subst e
      rw [seq_lt_irrefl hirr] at h
      cases h
  rcases seq_lt_total htri xs ys with h | h | h
  · exact Or.inl ⟨h, ne_of_lt xs ys h, asym xs ys h⟩
  · subst h
    exact Or.inr (Or.inl ⟨seq_lt_irrefl hirr xs, (seq_eq_iff_eq hbeq xs xs).mpr rfl,
      seq_lt_irrefl hirr xs⟩)
  · refine Or.inr (Or.inr ⟨asym ys xs h, ?_, h⟩)
    cases h2 : seq_eq xs ys
    · rfl
    · have e := (seq_eq_iff_eq hbeq xs ys).mp h2
      subst e
      rw [seq_lt_irrefl hirr] at h
      cases h

theorem length_and_seq_eq {T : Type} [BEq T] (xs ys : List T) :
    (decide (xs.length = ys.length) && seq_eq xs ys) = seq_eq xs ys := by
  cases h : seq_eq xs ys
  · simp
  · simp [seq_eq_length xs ys h]

/-- C15. When `<` on the elements is a strict total order and `==` on the
elements is equality, then for views `x`, `y` whose elements are live all six
comparisons return, and with `e`, `l`, `g` the results of `x == y`, `x < y`,
`y < x`: `x != y` is `not e`, `x > y` is `g`, `x <= y` is `l or e`, and
`x >= y` is `g or e`. -/
theorem C15_derived_comparisons {T : Type} [LT T] [DecidableRel (fun a b : T => a < b)]
    [BEq T] (hirr : ∀ a : T, ¬ a < a) (htrans : ∀ a b c : T, a < b → b < c → a < c)
    (htri : ∀ a b : T, a < b ∨ a = b ∨ b < a)
    (hbeq : ∀ a b : T, (a == b) = true ↔ a = b)
    (mem : Mem T) (x y : ArrayRef) (hx : x.Valid mem) (hy : y.Valid mem) :
    ∃ e l g : Bool, op_eq mem x y = .ok e ∧ op_lt mem x y = .ok l ∧ op_lt mem y x = .ok g ∧
      op_ne mem x y = .ok (!e) ∧ op_gt mem x y = .ok g ∧
      op_le mem x y = .ok (l || e) ∧ op_ge mem x y = .ok (g || e) := by
  obtain ⟨xs, hxl, hxs⟩ := exists_list_of_valid mem x hx
  obtain ⟨ys, hyl, hys⟩ := exists_list_of_valid mem y hy
  have he := op_eq_eq mem x y xs ys hxl hxs hyl hys
  rw [length_and_seq_eq] at he
  have hl := op_lt_eq mem x y xs ys hxl hxs hyl hys
  have hg := op_lt_eq mem y x ys xs hyl hys hxl hxs
  refine ⟨seq_eq xs ys, seq_lt xs ys, seq_lt ys xs, he, hl, hg, ?_, ?_, ?_, ?_⟩
  · simp only [op_ne, he]
  · simp only [op_gt, hg]
  · simp only [op_le, op_gt, hg]
    rcases seq_compare_cases hirr htrans htri hbeq xs ys with ⟨a, b, c⟩ | ⟨a, b, c⟩ | ⟨a, b, c⟩ <;>
      simp [a, b, c]
  · simp only [op_ge, hl]
    rcases seq_compare_cases hirr htrans htri hbeq xs ys with ⟨a, b, c⟩ | ⟨a, b, c⟩ | ⟨a, b, c⟩ <;>
      simp [a, b, c]

/-- C15 at the views of `[1, 2]` and `[1, 2, 3]`, stored at `100` and `200`. -/
theorem C15_derived_comparisons_witness :
    ∃ e l g : Bool,
      op_eq (place_two 100 [1, 2] 200 [1, 2, 3]) ⟨100, 2⟩ ⟨200, 3⟩ = .ok e ∧
      op_lt (place_two 100 [1, 2] 200 [1, 2, 3]) ⟨100, 2⟩ ⟨200, 3⟩ = .ok l ∧
      op_lt (place_two 100 [1, 2] 200 [1, 2, 3]) ⟨200, 3⟩ ⟨100, 2⟩ = .ok g ∧
      op_ne (place_two 100 [1, 2] 200 [1, 2, 3]) ⟨100, 2⟩ ⟨200, 3⟩ = .ok (!e) ∧
      op_gt (place_two 100 [1, 2] 200 [1, 2, 3]) ⟨100, 2⟩ ⟨200, 3⟩ = .ok g ∧
      op_le (place_two 100 [1, 2] 200 [1, 2, 3]) ⟨100, 2⟩ ⟨200, 3⟩ = .ok (l || e) ∧
      op_ge (place_two 100 [1, 2] 200 [1, 2, 3]) ⟨100, 2⟩ ⟨200, 3⟩ = .ok (g || e) :=
  C15_derived_comparisons (fun a => Nat.lt_irrefl a) (fun _ _ _ h1 h2 => Nat.lt_trans h1 h2)
    (fun a b => Nat.lt_trichotomy a b) (fun a b => by simp)
    (place_two 100 [1, 2] 200 [1, 2, 3]) ⟨100, 2⟩ ⟨200, 3⟩
    (valid_of_size_le _ _ 2 (by decide) (by decide))
    (valid_of_size_le _ _ 3 (by decide) (by decide))

/-! ## Equality is an equivalence -/

theorem seq_eq_refl {T : Type} [BEq T] (hrefl : ∀ a : T, (a == a) = true) :
    ∀ xs : List T, seq_eq xs xs = true := by
  intro xs
  induction xs with
  | nil => rfl
  | cons a xs ih => simp [seq_eq, hrefl a, ih]

theorem seq_eq_cons {T : Type} [BEq T] (a b : T) (xs ys : List T) :
    seq_eq (a :: xs) (b :: ys) = true ↔ (a == b) = true ∧ seq_eq xs ys = true := by
  by_cases h : (a == b) = true
  · simp [seq_eq, h]
  · simp [seq_eq, h]

theorem seq_eq_symm {T : Type} [BEq T]
    (hsymm : ∀ a b : T, (a == b) = true → (b == a) = true) :
    ∀ xs ys : List T, seq_eq xs ys = true → seq_eq ys xs = true := by
  intro xs
  induction xs with
  | nil =>
    intro ys h
    cases ys with
    | nil => rfl
    | cons b ys => simp [seq_eq] at h
  | cons a xs ih =>
    intro ys h
    cases ys with
    | nil => simp [seq_eq] at h
    | cons b ys =>
      rw [seq_eq_cons] at h ⊢
      exact ⟨hsymm a b h.1, ih ys h.2⟩

theorem seq_eq_trans {T : Type} [BEq T]
    (htr : ∀ a b c : T, (a == b) = true → (b == c) = true → (a == c) = true) :
    ∀ xs ys zs : List T, seq_eq xs ys = true → seq_eq ys zs = true →
      seq_eq xs zs = true := by
  intro xs
  induction xs with
  | nil =>
    intro ys zs h1 h2
    cases ys with
    | nil => exact h2
    | cons b ys => simp [seq_eq] at h1
  | cons a xs ih =>
    intro ys zs h1 h2
    cases ys with
    | nil => simp [seq_eq] at h1
    | cons b ys =>
      cases zs with
      | nil => simp [seq_eq] at h2
      | cons c zs =>
        rw [seq_eq_cons] at h1 h2 ⊢
        exact ⟨htr a b c h1.1 h2.1, ih ys zs h1.2 h2.2⟩

/-- C19. When `==` on the elements is reflexive, symmetric and transitive, then
on views whose elements are live `operator==` is reflexive, symmetric and
transitive; and any two empty views `u`, `v` are equal, whatever their `data_`. -/
theorem C19_equality_is_equivalence {T : Type} [BEq T]
    (hrefl : ∀ a : T, (a == a) = true)
    (hsymm : ∀ a b : T, (a == b) = true → (b == a) = true)
    (htr : ∀ a b c : T, (a == b) = true → (b == c) = true → (a == c) = true)
    (mem : Mem T) (A B C : ArrayRef)
    (hA : A.Valid mem) (hB : B.Valid mem) (hC : C.Valid mem)
    (u v : ArrayRef) (hu : u.empty = true) (hv : v.empty = true) :
    op_eq mem A A = .ok true ∧
    (op_eq mem A B = .ok true → op_eq mem B A = .ok true) ∧
    (op_eq mem A B = .ok true → op_eq mem B C = .ok true → op_eq mem A C = .ok true) ∧
    op_eq mem u v = .ok true := by
  obtain ⟨xs, hxl, hxs⟩ := exists_list_of_valid mem A hA
  obtain ⟨ys, hyl, hys⟩ := exists_list_of_valid mem B hB
  obtain ⟨zs, hzl, hzs⟩ := exists_list_of_valid mem C hC
  rw [op_eq_eq mem A A xs xs hxl hxs hxl hxs, op_eq_eq mem A B xs ys hxl hxs hyl hys,
    op_eq_eq mem B A ys xs hyl hys hxl hxs, op_eq_eq mem B C ys zs hyl hys hzl hzs,
    op_eq_eq mem A C xs zs hxl hxs hzl hzs]
  simp only [length_and_seq_eq]
  refine ⟨by simp [seq_eq_refl hrefl], ?_, ?_, ?_⟩
  · intro h
    have hb : seq_eq xs ys = true := by simpa using h
    rw [seq_eq_symm hsymm xs ys hb]
  · intro h1 h2
    have h1b : seq_eq xs ys = true := by simpa using h1
    have h2b : seq_eq ys zs = true := by simpa using h2
    rw [seq_eq_trans htr xs ys zs h1b h2b]
  · have hu0 : u.size_ = 0 := by simpa [ArrayRef.empty] using hu
    have hv0 : v.size_ = 0 := by simpa [ArrayRef.empty] using hv
    simp [op_eq, std_equal, ArrayRef.size, ArrayRef.begin, ArrayRef.end, hu0, hv0, equal_loop]

/-- C19 at the views of `[1, 2]`, `[1, 2]` and `[1, 2]` stored one after the
other from address `100`, and the empty views at `nullptr` and at `500`. -/
theorem C19_equality_is_equivalence_witness :
    op_eq (place 100 [1, 2, 1, 2, 1, 2]) ⟨100, 2⟩ ⟨100, 2⟩ = .ok true ∧
    (op_eq (place 100 [1, 2, 1, 2, 1, 2]) ⟨100, 2⟩ ⟨102, 2⟩ = .ok true →
      op_eq (place 100 [1, 2, 1, 2, 1, 2]) ⟨102, 2⟩ ⟨100, 2⟩ = .ok true) ∧
    (op_eq (place 100 [1, 2, 1, 2, 1, 2]) ⟨100, 2⟩ ⟨102, 2⟩ = .ok true →
      op_eq (place 100 [1, 2, 1, 2, 1, 2]) ⟨102, 2⟩ ⟨104, 2⟩ = .ok true →
      op_eq (place 100 [1, 2, 1, 2, 1, 2]) ⟨100, 2⟩ ⟨104, 2⟩ = .ok true) ∧
    op_eq (place 100 [1, 2, 1, 2, 1, 2]) ⟨nullptr, 0⟩ ⟨500, 0⟩ = .ok true :=
  C19_equality_is_equivalence (fun a => by simp) (fun a b h => by simp at h ⊢; omega)
    (fun a b c h1 h2 => by simp at h1 h2 ⊢; omega)
    (place 100 [1, 2, 1, 2, 1, 2]) ⟨100, 2⟩ ⟨102, 2⟩ ⟨104, 2⟩
    (valid_of_size_le _ _ 2 (by decide) (by decide))
    (valid_of_size_le _ _ 2 (by decide) (by decide))
    (valid_of_size_le _ _ 2 (by decide) (by decide))
    ⟨nullptr, 0⟩ ⟨500, 0⟩ rfl rfl

/-! ## Sub-slicing past the parent -/

/-- C18. For the view over `[a, b)` of a storage `s` of `N` elements and any
`c <= d` with `a + d <= N`, also when `d > b - a`, `view(c, d)` is a view of size
`d - c` whose element `k` is `s[a + c + k]`; for `[10, 20, 30, 40, 50]`, the
view over `[1, 3)` and the range `(0, 4)`, with assertions enabled, the
sub-slice has size `4 > 2` and its `at(3)` returns `50`, which the parent's
`at(3)` refuses. -/
theorem C18_subslice_not_clamped {T : Type} (w : Nat) (ndebug : Bool) (mem : Mem T)
    (s : List T) (p a b c d : Nat) (hab : a ≤ b) (hb : b ≤ s.length)
    (hN : s.length < 2 ^ w) (hcd : c ≤ d) (hd : a + d ≤ s.length) (hs : HoldsAt mem p s) :
    (∃ view sub : ArrayRef,
      ArrayRef.ctor_ptr w ndebug p a b = .ok view ∧ view.call w ndebug c d = .ok sub ∧
      sub.size = d - c ∧
      ∀ k, k < d - c → ∃ e, s[a + c + k]? = some e ∧ sub.at mem k = .ok e) ∧
    (ArrayRef.ctor_ptr 64 false 100 1 3 = .ok ⟨101, 2⟩ ∧
      (ArrayRef.mk 101 2).call 64 false 0 4 = .ok ⟨101, 4⟩ ∧
      (ArrayRef.mk 101 2).size < (ArrayRef.mk 101 4).size ∧
      (ArrayRef.mk 101 4).at (place 100 [10, 20, 30, 40, 50]) 3 = .ok 50 ∧
      (ArrayRef.mk 101 2).at (place 100 [10, 20, 30, 40, 50]) 3 = .error .out_of_range) := by
  refine ⟨?_, by decide, by decide, by decide, by decide, by decide⟩
  have h1 : size_sub w b a = b - a := size_sub_of_le w a b hab (by omega)
  have h2 : size_sub w d c = d - c := size_sub_of_le w c d hcd (by omega)
  refine ⟨{ data_ := p + a, size_ := b - a }, { data_ := p + a + c, size_ := d - c },
    ?_, ?_, rfl, ?_⟩
  · rw [ctor_ptr_ok, h1]
  · show ArrayRef.ctor_ptr w ndebug (p + a) c d = _
    rw [ctor_ptr_ok, h2]
  · intro k hk
    obtain ⟨e, he, hat⟩ := at_window mem s p (a + c) (d - c) hs (by omega) k hk
    refine ⟨e, he, ?_⟩
    rw [← hat, Nat.add_assoc]

/-- C18 at the storage `[10, 20, 30, 40, 50]`, the view over `[1, 3)` and the
range `(0, 4)`. -/
theorem C18_subslice_not_clamped_witness :
    (∃ view sub : ArrayRef,
      ArrayRef.ctor_ptr 64 false 100 1 3 = .ok view ∧ view.call 64 false 0 4 = .ok sub ∧
      sub.size = 4 - 0 ∧
      ∀ k, k < 4 - 0 → ∃ e, [10, 20, 30, 40, 50][1 + 0 + k]? = some e ∧
        sub.at (place 100 [10, 20, 30, 40, 50]) k = .ok e) ∧
    (ArrayRef.ctor_ptr 64 false 100 1 3 = .ok ⟨101, 2⟩ ∧
      (ArrayRef.mk 101 2).call 64 false 0 4 = .ok ⟨101, 4⟩ ∧
      (ArrayRef.mk 101 2).size < (ArrayRef.mk 101 4).size ∧
      (ArrayRef.mk 101 4).at (place 100 [10, 20, 30, 40, 50]) 3 = .ok 50 ∧
      (ArrayRef.mk 101 2).at (place 100 [10, 20, 30, 40, 50]) 3 = .error .out_of_range) :=
  C18_subslice_not_clamped 64 false (place 100 [10, 20, 30, 40, 50]) [10, 20, 30, 40, 50]
    100 1 3 0 4 (by decide) (by decide) (by decide) (by decide) (by decide)
    (holdsAt_place 100 _)

/-! ## Reads of the comparisons -/

theorem equal_loop_congr {T : Type} [BEq T] (mem mem2 : Mem T) :
    ∀ (n : Nat) (p q : Nat), (∀ k, k < n → mem2 (p + k) = mem (p + k)) →
      (∀ k, k < n → mem2 (q + k) = mem (q + k)) →
      equal_loop mem2 n p q = equal_loop mem n p q := by
  intro n
  induction n with
  | zero => intro p q _ _; rfl
  | succ n ih =>
    intro p q hp hq
    have sh : ∀ r m : Nat, r + 1 + m = r + (m + 1) := fun r m => by omega
    have e := ih (p + 1) (q + 1)
      (fun k hk => by rw [sh, hp (k + 1) (by omega)])
      (fun k hk => by rw [sh, hq (k + 1) (by omega)])
    have hp0 := hp 0 (Nat.succ_pos n)
    have hq0 := hq 0 (Nat.succ_pos n)
    rw [Nat.add_zero] at hp0 hq0
    simp only [equal_loop, deref, hp0, hq0, e]

theorem lexicographical_loop_congr {T : Type} [LT T] [DecidableRel (fun a b : T => a < b)]
    (mem mem2 : Mem T) :
    ∀ (n1 n2 : Nat) (p q : Nat), (∀ k, k < n1 → mem2 (p + k) = mem (p + k)) →
      (∀ k, k < n2 → mem2 (q + k) = mem (q + k)) →
      lexicographical_loop mem2 n1 n2 p q = lexicographical_loop mem n1 n2 p q := by
  intro n1
  induction n1 with
  | zero => intro n2 p q _ _; simp [lexicographical_loop]
  | succ n1 ih =>
    intro n2 p q hp hq
    cases n2 with
    | zero => simp [lexicographical_loop]
    | succ n2 =>
      have sh : ∀ r m : Nat, r + 1 + m = r + (m + 1) := fun r m => by omega
      have e := ih n2 (p + 1) (q + 1)
        (fun k hk => by rw [sh, hp (k + 1) (by omega)])
        (fun k hk => by rw [sh, hq (k + 1) (by omega)])
      have hp0 := hp 0 (Nat.succ_pos n1)
      have hq0 := hq 0 (Nat.succ_pos n2)
      rw [Nat.add_zero] at hp0 hq0
      simp only [lexicographical_loop, deref, hp0, hq0, e]

theorem op_eq_congr {T : Type} [BEq T] (mem mem2 : Mem T) (x y : ArrayRef)
    (hx : ∀ k, k < x.size → mem2 (x.data_ + k) = mem (x.data_ + k))
    (hy : ∀ k, k < y.size → mem2 (y.data_ + k) = mem (y.data_ + k)) :
    op_eq mem2 x y = op_eq mem x y := by
  unfold op_eq std_equal ArrayRef.begin ArrayRef.end
  unfold ArrayRef.size at *
  by_cases h : x.size_ = y.size_
  · simp only [h, beq_self_eq_true, if_true, Nat.add_sub_cancel_left]
    exact equal_loop_congr mem mem2 y.size_ _ _ (fun k hk => hx k (by omega)) hy
  · simp [h]

theorem op_lt_congr {T : Type} [LT T] [DecidableRel (fun a b : T => a < b)]
    (mem mem2 : Mem T) (x y : ArrayRef)
    (hx : ∀ k, k < x.size → mem2 (x.data_ + k) = mem (x.data_ + k))
    (hy : ∀ k, k < y.size → mem2 (y.data_ + k) = mem (y.data_ + k)) :
    op_lt mem2 x y = op_lt mem x y := by
  unfold op_lt std_lexicographical_compare ArrayRef.begin ArrayRef.end
  rw [Nat.add_sub_cancel_left, Nat.add_sub_cancel_left]
  exact lexicographical_loop_congr mem mem2 _ _ _ _ hx hy

theorem window_only_left {T : Type} (mem : Mem T) (x y : ArrayRef) (k : Nat)
    (hk : k < x.size) : window_only mem x y (x.data_ + k) = mem (x.data_ + k) := by
  have hk2 : k < x.size_ := hk
  simp [window_only, hk2]

theorem window_only_right {T : Type} (mem : Mem T) (x y : ArrayRef) (k : Nat)
    (hk : k < y.size) : window_only mem x y (y.data_ + k) = mem (y.data_ + k) := by
  have hk2 : k < y.size_ := hk
  simp [window_only, hk2]

/-- C20. The results of `x == y` and of `x < y` are the same in any two memories
that agree on the positions `k < x.size()` of `x` and `k < y.size()` of `y`,
in particular in the memory where every address outside the two windows holds
no element and each read there would be a fault; and when the sizes differ
`x == y` returns `false` in every memory, reading nothing. -/
theorem C20_reads_inside_windows {T : Type} [BEq T] [LT T]
    [DecidableRel (fun a b : T => a < b)] (mem mem2 : Mem T) (x y : ArrayRef)
    (hx : ∀ k, k < x.size → mem2 (x.data_ + k) = mem (x.data_ + k))
    (hy : ∀ k, k < y.size → mem2 (y.data_ + k) = mem (y.data_ + k)) :
    op_eq mem2 x y = op_eq mem x y ∧ op_lt mem2 x y = op_lt mem x y ∧
    op_eq (window_only mem x y) x y = op_eq mem x y ∧
    op_lt (window_only mem x y) x y = op_lt mem x y ∧
    (x.size ≠ y.size → ∀ m : Mem T, op_eq m x y = .ok false) := by
  refine ⟨op_eq_congr mem mem2 x y hx hy, op_lt_congr mem mem2 x y hx hy,
    op_eq_congr mem _ x y (window_only_left mem x y) (window_only_right mem x y),
    op_lt_congr mem _ x y (window_only_left mem x y) (window_only_right mem x y), ?_⟩
  intro h m
  have h2 : ¬ x.size_ = y.size_ := h
  simp [op_eq, ArrayRef.size, h2]

/-- C20 at the views of `[1, 2, 3]` and `[1, 3]`, in two memories that differ
right after each window. -/
theorem C20_reads_inside_windows_witness :
    op_eq (place_two 100 [1, 2, 3, 99] 200 [1, 3, 77]) ⟨100, 3⟩ ⟨200, 2⟩
      = op_eq (place_two 100 [1, 2, 3] 200 [1, 3]) ⟨100, 3⟩ ⟨200, 2⟩ ∧
    op_lt (place_two 100 [1, 2, 3, 99] 200 [1, 3, 77]) ⟨100, 3⟩ ⟨200, 2⟩
      = op_lt (place_two 100 [1, 2, 3] 200 [1, 3]) ⟨100, 3⟩ ⟨200, 2⟩ ∧
    op_eq (window_only (place_two 100 [1, 2, 3] 200 [1, 3]) ⟨100, 3⟩ ⟨200, 2⟩)
        ⟨100, 3⟩ ⟨200, 2⟩
      = op_eq (place_two 100 [1, 2, 3] 200 [1, 3]) ⟨100, 3⟩ ⟨200, 2⟩ ∧
    op_lt (window_only (place_two 100 [1, 2, 3] 200 [1, 3]) ⟨100, 3⟩ ⟨200, 2⟩)
        ⟨100, 3⟩ ⟨200, 2⟩
      = op_lt (place_two 100 [1, 2, 3] 200 [1, 3]) ⟨100, 3⟩ ⟨200, 2⟩ ∧
    ((ArrayRef.mk 100 3).size ≠ (ArrayRef.mk 200 2).size →
      ∀ m : Mem Nat, op_eq m ⟨100, 3⟩ ⟨200, 2⟩ = .ok false) :=
  C20_reads_inside_windows (place_two 100 [1, 2, 3] 200 [1, 3])
    (place_two 100 [1, 2, 3, 99] 200 [1, 3, 77]) ⟨100, 3⟩ ⟨200, 2⟩
    (by decide) (by decide)

/-! ## Writing through a view -/

theorem store_ok {T : Type} (mem : Mem T) (q : Nat) (old val : T) (h : mem q = some old) :
    store mem q val = .ok (fun a => if a = q then some val else mem a) := by
  simp only [store, h]

theorem holdsAt_store {T : Type} (mem : Mem T) (s : List T) (p n : Nat) (val : T)
    (hs : HoldsAt mem p s) (hn : n < s.length) :
    HoldsAt (fun a => if a = p + n then some val else mem a) p (s.set n val) := by
  intro m hm
  rw [List.length_set] at hm
  by_cases e : m = n
  · subst e
    simp [List.getElem?_set_self hm]
  · have e2 : ¬ p + m = p + n := by omega
    have e3 : n ≠ m := fun h => e h.symm
    simp only [e2, if_false, List.getElem?_set_ne e3]
    exact hs m hm

/-- C17. For the view `v` over `[i, j)` of a storage `s` at `p` and `k < j - i`,
the assignments `v.at(k) = val` and `v[k] = val` return the same new memory; in
it the storage holds `s` with position `i + k` replaced by `val`, every address
other than that of position `i + k` holds what it held before, every view `u`
with a position `m < u.size()` at that address reads `val` there by `at` and by
`operator[]`, and so does `v` itself by `at(k)`, by `v[k]` and as the `k`-th
element of its iteration. -/
theorem C17_write_through {T : Type} (w : Nat) (ndebug : Bool) (mem : Mem T)
    (s : List T) (p i j k : Nat) (val : T) (hij : i ≤ j) (hj : j ≤ s.length)
    (hN : s.length < 2 ^ w) (hk : k < j - i) (hs : HoldsAt mem p s)
    (u : ArrayRef) (m : Nat) (hm : m < u.size) (hum : u.data_ + m = p + (i + k)) :
    ∃ (v : ArrayRef) (mem2 : Mem T),
      ArrayRef.ctor_ptr w ndebug p i j = .ok v ∧
      v.at_assign mem k val = .ok mem2 ∧ v.index_assign ndebug mem k val = .ok mem2 ∧
      HoldsAt mem2 p (s.set (i + k) val) ∧
      (∀ a : Nat, a ≠ p + (i + k) → mem2 a = mem a) ∧
      u.at mem2 m = .ok val ∧ u.index ndebug mem2 m = .ok val ∧
      v.at mem2 k = .ok val ∧ v.index ndebug mem2 k = .ok val ∧
      ∃ l : List T, visit mem2 v.begin v.end = .ok l ∧ l.length = v.size ∧
        l[k]? = some val := by
  have hsz : size_sub w j i = j - i := size_sub_of_le w i j hij (by omega)
  have hik : i + k < s.length := by omega
  have hold : mem (p + (i + k)) = some s[i + k] := holdsAt_elem mem p s hs (i + k) hik
  have hst := store_ok mem (p + (i + k)) s[i + k] val hold
  have hnew := holdsAt_store mem s p (i + k) val hs hik
  have hread : (fun a => if a = p + (i + k) then some val else mem a) (p + (i + k))
      = some val := by simp
  have hwin := holdsAt_window _ (s.set (i + k) val) p i (j - i) hnew
  have hlen : (((s.set (i + k) val).drop i).take (j - i)).length = j - i := by
    simp only [List.length_take, List.length_drop, List.length_set]; omega
  refine ⟨{ data_ := p + i, size_ := j - i }, _, ?_, ?_, ?_, hnew, ?_, ?_, ?_, ?_, ?_,
    ((s.set (i + k) val).drop i).take (j - i), ?_, hlen, ?_⟩
  · rw [ctor_ptr_ok, hsz]
  · simp only [ArrayRef.at_assign, Nat.not_le.mpr hk, if_false, Nat.add_assoc, hst]
  · simp only [ArrayRef.index_assign, cassert, hk, decide_True, Bool.or_true, if_true,
      Nat.add_assoc, hst]
  · intro a ha
    simp [ha]
  · apply at_of_lt _ _ _ _ hm
    rw [hum]; exact hread
  · have hm2 : m < u.size_ := hm
    simp only [ArrayRef.index, cassert, hm2, decide_True, Bool.or_true, if_true, deref, hum,
      hread]
  · apply at_of_lt _ _ _ _ (show k < j - i from hk)
    show _ = some val
    rw [Nat.add_assoc]; exact hread
  · simp only [ArrayRef.index, cassert, hk, decide_True, Bool.or_true, if_true, deref,
      Nat.add_assoc, hread]
  · exact (visit_view _ ⟨p + i, j - i⟩ _ hlen hwin).1
  · rw [List.getElem?_take_of_lt hk, List.getElem?_drop, List.getElem?_set_self hik]

/-- C17 at the storage `[10, 20, 30, 40, 50]`, the view over `[1, 4)`, the write
of `77` through element `1`, and the reader `u` over `[0, 5)` at position `2`. -/
theorem C17_write_through_witness :
    ∃ (v : ArrayRef) (mem2 : Mem Nat),
      ArrayRef.ctor_ptr 64 false 100 1 4 = .ok v ∧
      v.at_assign (place 100 [10, 20, 30, 40, 50]) 1 77 = .ok mem2 ∧
      v.index_assign false (place 100 [10, 20, 30, 40, 50]) 1 77 = .ok mem2 ∧
      HoldsAt mem2 100 ([10, 20, 30, 40, 50].set (1 + 1) 77) ∧
      (∀ a : Nat, a ≠ 100 + (1 + 1) → mem2 a = place 100 [10, 20, 30, 40, 50] a) ∧
      (ArrayRef.mk 100 5).at mem2 2 = .ok 77 ∧
      (ArrayRef.mk 100 5).index false mem2 2 = .ok 77 ∧
      v.at mem2 1 = .ok 77 ∧ v.index false mem2 1 = .ok 77 ∧
      ∃ l : List Nat, visit mem2 v.begin v.end = .ok l ∧ l.length = v.size ∧
        l[1]? = some 77 :=
  C17_write_through 64 false (place 100 [10, 20, 30, 40, 50]) [10, 20, 30, 40, 50]
    100 1 4 1 77 (by decide) (by decide) (by decide) (by decide) (holdsAt_place 100 _)
    ⟨100, 5⟩ 2 (by decide) (by decide)

end aref
